import Mathlib

/-!
Verification of the Connect-N game core (board rules, heuristic evaluator,
minimax searcher, MCTS searcher) against its natural-language specification.

The Python source is shallowly embedded:
* `Board` is the value-level board (`board.py`): cells are naturals
  (0 = empty, 1/2 = players), the grid is a row-major list of rows with
  row 0 at the top, exactly as in the source.
* Fallible operations return `Except PyErr`, one constructor per raise
  site of the source.
* For the frame property (the agents never mutate the caller's board) the
  rows of a grid are modelled as references into a `Heap` of rows, mirroring
  Python's object semantics for `list` rows; see the `Heap` section below.
-/

/-- One constructor per raise site in the embedded sources. -/
inductive PyErr where
  /-- `ValueError` raised by the `Board` constructor validation. -/
  | configError
  /-- `ValueError("Invalid player ...")` in `Board.drop`. -/
  | invalidPlayer
  /-- `IndexError("Column ... is out of range ...")` in `Board.drop`. -/
  | columnRange
  /-- `ValueError("Column ... is full")` in `Board.drop`. -/
  | columnFull
  /-- `RuntimeError("No empty cell found despite top-cell check")` in `Board.drop`. -/
  | noEmptyCell
  /-- `RuntimeError("No legal moves available.")` in the agents' `select_move`. -/
  | noLegalMoves
  /-- `AttributeError`: `MinimaxAgent._minimax` calls `self.eval_agent.score_position`,
      an attribute `_HeuristicBase` does not define (it defines `_score_position`). -/
  | attributeError
  /-- `IndexError` raised by `random.choice` on an empty sequence. -/
  | emptyChoice
  deriving DecidableEq

/-- Value-level board, mirroring the attributes of `board.py`'s `Board`. -/
structure Board where
  rows : ℕ
  cols : ℕ
  connect : ℕ
  grid : List (List ℕ)
  moves : ℕ
  deriving DecidableEq

/-- Read cell `(r, c)` of the grid (row 0 is the top row).  Out-of-range reads
default to 0; all reads performed by the embedded code are in range for
well-formed boards. -/
def Board.cell (b : Board) (r c : ℕ) : ℕ :=
  ((b.grid[r]?.getD [])[c]?).getD 0

/-- Shape well-formedness: the grid really is `rows × cols` and is nonempty.
The `Board` constructor guarantees `3 ≤ rows, cols ≤ 30`; only positivity is
needed by the proofs. -/
def Board.WF (b : Board) : Prop :=
  b.grid.length = b.rows ∧ (∀ row ∈ b.grid, row.length = b.cols) ∧
    0 < b.rows ∧ 0 < b.cols

instance (b : Board) : Decidable b.WF := by
  unfold Board.WF; infer_instance

instance {ε α : Type} [DecidableEq ε] [DecidableEq α] :
    DecidableEq (Except ε α) := fun x y =>
  match x, y with
  | .ok a, .ok b =>
    if h : a = b then .isTrue (by rw [h]) else .isFalse (by simp [h])
  | .ok _, .error _ => .isFalse (by simp)
  | .error _, .ok _ => .isFalse (by simp)
  | .error e, .error f =>
    if h : e = f then .isTrue (by rw [h]) else .isFalse (by simp [h])

/-- Constructor validation of `Board.__init__` (`board.py`). -/
def dimsValid (rows cols connect : ℕ) : Bool :=
  3 ≤ rows && rows ≤ 30 && (3 ≤ cols && cols ≤ 30) && 3 ≤ connect &&
    connect ≤ max rows cols

/-- `Board(rows, cols, connect)`: validate, then build the all-empty grid. -/
def mkBoard (rows cols connect : ℕ) : Except PyErr Board :=
  if dimsValid rows cols connect then
    .ok ⟨rows, cols, connect, List.replicate rows (List.replicate cols 0), 0⟩
  else
    .error .configError

/-- `Board.reset`: clear the grid and the move counter. -/
def Board.reset (b : Board) : Board :=
  { b with grid := List.replicate b.rows (List.replicate b.cols 0), moves := 0 }

/-- `Board.valid_moves`: one Boolean per column, true iff the top cell is empty. -/
def Board.valid_moves (b : Board) : List Bool :=
  (List.range b.cols).map (fun c => b.cell 0 c == 0)

/-- `Board.is_full`: `moves >= rows * cols`. -/
def Board.is_full (b : Board) : Bool :=
  b.rows * b.cols ≤ b.moves

/-- The scan of `Board.drop`: `for r in range(rows-1, -1, -1)`, the first row
index (from the bottom) whose cell in `col` is empty. -/
def Board.findEmptyRow (b : Board) (col : ℕ) : Option ℕ :=
  (List.range b.rows).reverse.find? (fun r => b.cell r col == 0)

/-- Write `player` into cell `(r, col)` and increment the move counter. -/
def Board.place (b : Board) (r col player : ℕ) : Board :=
  { b with grid := b.grid.set r ((b.grid[r]?.getD []).set col player),
           moves := b.moves + 1 }

/-- `Board.drop`, with the state threaded: the returned board is the state of
the receiver when the call finishes, whether it returns `True` or raises.
All three guards run before any mutation, exactly as in the source. -/
def Board.dropM (b : Board) (col player : ℕ) : Except PyErr Bool × Board :=
  if ¬ (player = 1 ∨ player = 2) then (.error .invalidPlayer, b)
  else if ¬ (col < b.cols) then (.error .columnRange, b)
  else if b.cell 0 col ≠ 0 then (.error .columnFull, b)
  else
    match b.findEmptyRow col with
    | some r => (.ok true, b.place r col player)
    | none => (.error .noEmptyCell, b)

/-- Number of non-empty cells of the grid. -/
def Board.countTokens (b : Board) : ℕ :=
  (b.grid.map (fun row => row.countP (fun x => x ≠ 0))).sum

/-- The spec's board invariant: the top cell of a column is empty iff the
column has an empty cell; nothing floats (every cell below a token is a
token; row indices grow downwards); the move counter counts the tokens. -/
def Board.Inv (b : Board) : Prop :=
  (∀ c < b.cols, (b.cell 0 c = 0 ↔ ∃ r < b.rows, b.cell r c = 0)) ∧
  (∀ c < b.cols, ∀ r, r + 1 < b.rows → b.cell r c ≠ 0 → b.cell (r + 1) c ≠ 0) ∧
  b.moves = b.countTokens

instance (b : Board) : Decidable b.Inv := by
  unfold Board.Inv
  have : ∀ c, Decidable (∀ r, r + 1 < b.rows → b.cell r c ≠ 0 →
      b.cell (r + 1) c ≠ 0) := by
    intro c
    refine decidable_of_iff
      (∀ r, r < b.rows → r + 1 < b.rows → b.cell r c ≠ 0 →
        b.cell (r + 1) c ≠ 0) ⟨fun h r h1 h2 => h r (by omega) h1 h2,
        fun h r _ h1 h2 => h r h1 h2⟩
  infer_instance

/-- `_opp`: the opponent's player id (`2 if pid == 1 else 1`). -/
def opp (pid : ℕ) : ℕ := if pid = 1 then 2 else 1

/-- Horizontal window of `connect` cells starting at `(r, c)`. -/
def hwindow (b : Board) (r c : ℕ) : List ℕ :=
  (List.range b.connect).map (fun i => b.cell r (c + i))

/-- Vertical window of `connect` cells starting at `(r, c)`. -/
def vwindow (b : Board) (r c : ℕ) : List ℕ :=
  (List.range b.connect).map (fun i => b.cell (r + i) c)

/-- Down-right diagonal window of `connect` cells starting at `(r, c)`. -/
def dwindow (b : Board) (r c : ℕ) : List ℕ :=
  (List.range b.connect).map (fun i => b.cell (r + i) (c + i))

/-- Up-right diagonal window of `connect` cells starting at `(r, c)`
(the source only scans from `r ≥ connect - 1`, so `r - i` never underflows). -/
def uwindow (b : Board) (r c : ℕ) : List ℕ :=
  (List.range b.connect).map (fun i => b.cell (r - i) (c + i))

/-- One window's winner contribution in `Board.winner`: the window's first
cell if it is non-empty and all `connect` cells equal it, else 0. -/
def winWindow (w : List ℕ) : ℕ :=
  match w with
  | [] => 0
  | p :: _ => if p ≠ 0 ∧ w.all (fun x => x == p) then p else 0

/-- `Board.winner`: scan the four line families in source order (vertical,
horizontal, down-right, up-right; outer/inner loops as in the code) and
return the first winning run's player, or 0. -/
def Board.winner (b : Board) : ℕ :=
  let k := b.connect
  let wins :=
    ((List.range b.cols).flatMap (fun c =>
      (List.range (b.rows - (k - 1))).map (fun r => vwindow b r c))) ++
    ((List.range b.rows).flatMap (fun r =>
      (List.range (b.cols - (k - 1))).map (fun c => hwindow b r c))) ++
    ((List.range (b.rows - (k - 1))).flatMap (fun r =>
      (List.range (b.cols - (k - 1))).map (fun c => dwindow b r c))) ++
    ((List.range' (k - 1) (b.rows - (k - 1))).flatMap (fun r =>
      (List.range (b.cols - (k - 1))).map (fun c => uwindow b r c)))
  match wins.find? (fun w => !(winWindow w == 0)) with
  | some w => winWindow w
  | none => 0

/-- The legal column indices, `[c for c, ok in enumerate(valid_moves()) if ok]`:
filtering `range(cols)` by the mask value is the same list. -/
def Board.legalCols (b : Board) : List ℕ :=
  (List.range b.cols).filter (fun c => b.cell 0 c == 0)

/-- One window's contribution in `_count_potentials`: skipped if it holds an
opponent token, else the square of the player's token count. -/
def windowPotential (pid : ℕ) (w : List ℕ) : ℕ :=
  if opp pid ∈ w then 0 else (w.count pid) ^ 2

/-- `_count_potentials`: the four window families of the source, in order
(vertical, horizontal, down-right, up-right). -/
def countPotentials (b : Board) (pid : ℕ) : ℕ :=
  let k := b.connect
  ((List.range b.cols).map (fun c =>
    ((List.range (b.rows - (k - 1))).map (fun r =>
      windowPotential pid (vwindow b r c))).sum)).sum +
  ((List.range b.rows).map (fun r =>
    ((List.range (b.cols - (k - 1))).map (fun c =>
      windowPotential pid (hwindow b r c))).sum)).sum +
  ((List.range (b.rows - (k - 1))).map (fun r =>
    ((List.range (b.cols - (k - 1))).map (fun c =>
      windowPotential pid (dwindow b r c))).sum)).sum +
  ((List.range' (k - 1) (b.rows - (k - 1))).map (fun r =>
    ((List.range (b.cols - (k - 1))).map (fun c =>
      windowPotential pid (uwindow b r c))).sum)).sum

/-- `is_playable` inside `_detect_fork_patterns`: the cell is empty and either
sits on the bottom row or on top of an occupied cell. -/
def isPlayable (b : Board) (r c : ℕ) : Bool :=
  b.cell r c == 0 && (r == b.rows - 1 || !(b.cell (r + 1) c == 0))

/-- The pattern literal of `_detect_fork_patterns`.  The source writes
`[0, me * (k - 2), 0]` where `me` is the player id — an *integer*
multiplication, so this list always has exactly three elements. -/
def forkPatternLiteral (who k : ℕ) : List ℕ := [0, who * (k - 2), 0]

/-- Horizontal block of `_detect_fork_patterns` (two independent `if`s). -/
def forkScoreHoriz (b : Board) (pid : ℕ) : ℤ :=
  ((List.range b.rows).map (fun r =>
    ((List.range (b.cols - (b.connect - 1))).map (fun c =>
      (if hwindow b r c = forkPatternLiteral pid b.connect then
        (if isPlayable b r c ∧ isPlayable b r (c + (b.connect - 1)) then
          80000 else 0)
      else 0) +
      (if hwindow b r c = forkPatternLiteral (opp pid) b.connect then
        (if isPlayable b r c ∧ isPlayable b r (c + (b.connect - 1)) then
          -100000 else 0)
      else 0))).sum)).sum

/-- Down-right diagonal block of `_detect_fork_patterns` (`if`/`elif`). -/
def forkScoreDiagDR (b : Board) (pid : ℕ) : ℤ :=
  ((List.range (b.rows - (b.connect - 1))).map (fun r =>
    ((List.range (b.cols - (b.connect - 1))).map (fun c =>
      if dwindow b r c = forkPatternLiteral pid b.connect then
        (if isPlayable b r c ∧
            isPlayable b (r + (b.connect - 1)) (c + (b.connect - 1)) then
          (80000 : ℤ) else 0)
      else if dwindow b r c = forkPatternLiteral (opp pid) b.connect then
        (if isPlayable b r c ∧
            isPlayable b (r + (b.connect - 1)) (c + (b.connect - 1)) then
          -100000 else 0)
      else 0)).sum)).sum

/-- Up-right diagonal block of `_detect_fork_patterns` (two independent `if`s). -/
def forkScoreDiagUR (b : Board) (pid : ℕ) : ℤ :=
  ((List.range' (b.connect - 1) (b.rows - (b.connect - 1))).map (fun r =>
    ((List.range (b.cols - (b.connect - 1))).map (fun c =>
      (if uwindow b r c = forkPatternLiteral pid b.connect then
        (if isPlayable b r c ∧
            isPlayable b (r - (b.connect - 1)) (c + (b.connect - 1)) then
          (80000 : ℤ) else 0)
      else 0) +
      (if uwindow b r c = forkPatternLiteral (opp pid) b.connect then
        (if isPlayable b r c ∧
            isPlayable b (r - (b.connect - 1)) (c + (b.connect - 1)) then
          -100000 else 0)
      else 0))).sum)).sum

/-- `_detect_fork_patterns`: bonus 80000 per own matching pattern, penalty
100000 per opponent pattern, over the three scanned axes. -/
def detectForkPatterns (b : Board) (pid : ℕ) : ℤ :=
  forkScoreHoriz b pid + forkScoreDiagDR b pid + forkScoreDiagUR b pid

/-- `_center_bonus`: `-int(abs(col - (cols - 1) / 2.0))`.  The Python floats
`mid` and `dist` are exact half-integers for at most 30 columns, represented
in `ℚ`; `int()` truncates toward zero, which equals the floor on the
nonnegative distance. -/
def centerBonus (b : Board) (col : ℕ) : ℤ :=
  -⌊|(col : ℚ) - ((b.cols : ℚ) - 1) / 2|⌋

/-- Modelled from the spec: the fork template of §4.2, a window of exactly
`k` cells `[Empty, (k−2) copies of the player's token, Empty]`.  Used only to
compare the source's pattern against the spec's words. -/
def specForkTemplate (k who : ℕ) : List ℕ :=
  [0] ++ List.replicate (k - 2) who ++ [0]

/-- Modelled from the spec: the board has a horizontal window matching the
spec's fork template for `pid` whose two empty endpoints are both playable. -/
def specOpenForkPresentH (b : Board) (pid : ℕ) : Bool :=
  decide (∃ r < b.rows, ∃ c < b.cols,
    c + (b.connect - 1) < b.cols ∧
    hwindow b r c = specForkTemplate b.connect pid ∧
    isPlayable b r c = true ∧ isPlayable b r (c + (b.connect - 1)) = true)

/-- A concrete 6×7 connect-4 board: two adjacent player-1 tokens on the bottom
row with both horizontal extension cells empty and playable (`_XX_`). -/
def forkBoardC2 : Board :=
  ⟨6, 7, 4,
    [[0, 0, 0, 0, 0, 0, 0], [0, 0, 0, 0, 0, 0, 0], [0, 0, 0, 0, 0, 0, 0],
     [0, 0, 0, 0, 0, 0, 0], [0, 0, 0, 0, 0, 0, 0], [0, 0, 1, 1, 0, 0, 0]], 2⟩

/-- The 6×8 connect-4 board used to refute C4's even-column-count case. -/
def boardC4 : Board := ⟨6, 8, 4, List.replicate 6 (List.replicate 8 0), 0⟩

/-- A node of the MCTS tree (`_Node`): the move (column) that led here from
the parent, the player to move at this node, the visit count `N`, the
accumulated reward `W`, and the children in insertion order (ascending
column order, the iteration order of the Python dict).  `W` is a Python float
that only ever accumulates −1, 0 or +1, all exact in floating point, so it is
modelled as an integer.  The parent back-reference is implicit in the tree. -/
inductive MNode where
  | mk (move : ℕ) (toPlay : ℕ) (visits : ℕ) (rewardSum : ℤ)
      (children : List MNode)

/-- The move that led to this node. -/
def MNode.move : MNode → ℕ
  | .mk m _ _ _ _ => m

/-- The player to move at this node. -/
def MNode.toPlay : MNode → ℕ
  | .mk _ t _ _ _ => t

/-- The visit count `N`. -/
def MNode.visits : MNode → ℕ
  | .mk _ _ n _ _ => n

/-- The accumulated reward `W`. -/
def MNode.rewardSum : MNode → ℤ
  | .mk _ _ _ w _ => w

/-- The children, in insertion (column) order. -/
def MNode.children : MNode → List MNode
  | .mk _ _ _ _ cs => cs

instance : Inhabited MNode := ⟨.mk 0 1 0 0 []⟩

/-- Replace the element at index `i` (no-op when out of range). -/
def modifyIdx {α : Type} (f : α → α) : List α → ℕ → List α
  | [], _ => []
  | a :: t, 0 => f a :: t
  | a :: t, i + 1 => a :: modifyIdx f t i

/-- The child at index `i` of the children list. -/
def MNode.childAt (nd : MNode) (i : ℕ) : MNode :=
  nd.children.getD i default

/-- Apply `f` to this node and to every node along the child-index path. -/
def MNode.updateAlong (f : MNode → MNode) : MNode → List ℕ → MNode
  | nd, [] => f nd
  | nd, i :: rest =>
    match f nd with
    | .mk m t n w cs =>
      .mk m t n w (modifyIdx (fun c => c.updateAlong f rest) cs i)

/-- The nodes visited along a child-index path, root first. -/
def MNode.nodesAlong : MNode → List ℕ → List MNode
  | nd, [] => [nd]
  | nd, i :: rest => nd :: (nd.childAt i).nodesAlong rest

/-- Every index of the path addresses an existing child. -/
def MNode.validPath : MNode → List ℕ → Bool
  | _, [] => true
  | nd, i :: rest => decide (i < nd.children.length) && (nd.childAt i).validPath rest

/-- The per-node reward of `_backprop`: 0 on a draw, +1 when the outcome is
the opponent of the node's to-play (it favours whoever moved into the node),
−1 otherwise. -/
def backpropReward (outcome toPlay : ℕ) : ℤ :=
  if outcome = 0 then 0 else if outcome = opp toPlay then 1 else -1

/-- `MCTSAgent._backprop`: each node of the visited root→leaf path gets its
visit count incremented and the outcome reward (from its own to-play
perspective) added.  The source iterates the path in reverse mutating each
node in place; the nodes of a root path are distinct tree positions, so the
functional per-node update below is the same. -/
def MNode.backprop (root : MNode) (path : List ℕ) (outcome : ℕ) : MNode :=
  root.updateAlong (fun nd =>
    .mk nd.move nd.toPlay (nd.visits + 1)
      (nd.rewardSum + backpropReward outcome nd.toPlay) nd.children) path

/-- The heap of row objects, addressed by index. -/
abbrev Heap := List (List ℕ)

/-- A board whose grid is a list of row references into a `Heap`. -/
structure BoardR where
  rows : ℕ
  cols : ℕ
  connect : ℕ
  gridRefs : List ℕ
  moves : ℕ

/-- The value-level view of a heap board: dereference every row. -/
def toVal (h : Heap) (b : BoardR) : Board :=
  ⟨b.rows, b.cols, b.connect, b.gridRefs.map (fun ref => h.getD ref []), b.moves⟩

/-- The grid contents a heap board currently sees. -/
def gridOf (h : Heap) (b : BoardR) : List (List ℕ) :=
  (toVal h b).grid

/-- Sequencing for heap computations: the heap survives a raise (Python
exceptions do not roll back state). -/
def hbind {α β : Type} (x : Heap × Except PyErr α)
    (f : α → Heap → Heap × Except PyErr β) : Heap × Except PyErr β :=
  match x with
  | (h, .ok a) => f a h
  | (h, .error e) => (h, .error e)

/-- Allocate rows at the end of the heap, returning their references. -/
def allocRows (h : Heap) (rows : List (List ℕ)) : Heap × List ℕ :=
  (h ++ rows, List.range' h.length rows.length)

/-- `_clone_board` (and the head of `_clone_and_drop`):
`Board(b.rows, b.cols, b.connect)` validates the dimensions, then
`nb.grid = [row[:] for row in b.grid]; nb.moves = b.moves` replaces the grid
with fresh copies of the source rows.  (The constructor's temporary all-zero
rows are replaced immediately and never referenced again; they are not kept
in the model.) -/
def cloneBoardH (b : BoardR) (h : Heap) : Heap × Except PyErr BoardR :=
  if dimsValid b.rows b.cols b.connect then
    match allocRows h (gridOf h b) with
    | (h', refs) => (h', .ok ⟨b.rows, b.cols, b.connect, refs, b.moves⟩)
  else (h, .error .configError)

/-- `Board.drop` on a heap board: the same guards and downward scan as
`Board.dropM`, with the write going through the dropped board's own row
reference. -/
def dropHM (b : BoardR) (col player : ℕ) (h : Heap) :
    Heap × Except PyErr BoardR :=
  if ¬ (player = 1 ∨ player = 2) then (h, .error .invalidPlayer)
  else if ¬ (col < b.cols) then (h, .error .columnRange)
  else if (toVal h b).cell 0 col ≠ 0 then (h, .error .columnFull)
  else
    match (toVal h b).findEmptyRow col with
    | some r =>
      (h.set (b.gridRefs.getD r 0)
        ((h.getD (b.gridRefs.getD r 0) []).set col player),
        .ok { b with moves := b.moves + 1 })
    | none => (h, .error .noEmptyCell)

/-- `_clone_and_drop`: clone, then drop on the clone. -/
def cloneAndDropH (b : BoardR) (col pid : ℕ) (h : Heap) :
    Heap × Except PyErr BoardR :=
  hbind (cloneBoardH b h) (fun nb h => dropHM nb col pid h)

/-- The legal columns a heap board currently sees. -/
def legalColsR (h : Heap) (b : BoardR) : List ℕ :=
  (toVal h b).legalCols

/-- The six weights of `_HeuristicBase.__init__`. -/
structure Weights where
  wWin : ℤ
  wBlock : ℤ
  wPot : ℤ
  wCenter : ℤ
  wMyFork : ℤ
  wOppFork : ℤ

/-- `OffensiveAgent`'s weights (also the minimax evaluator's default). -/
def offensiveWeights : Weights := ⟨1000000, 200000, 200, 20, 450000, 500000⟩

/-- `DefensiveAgent`'s weights. -/
def defensiveWeights : Weights := ⟨1000000, 200000, 200, 20, 350000, 600000⟩

/-- The loop of `_immediate_wins` over the already-computed legal columns:
clone-and-drop each, keep those whose resulting board is a win for `pid`. -/
def immediateWinsAux (b : BoardR) (pid : ℕ) :
    List ℕ → Heap → Heap × Except PyErr (List ℕ)
  | [], h => (h, .ok [])
  | c :: rest, h =>
    hbind (cloneAndDropH b c pid h) (fun nb h =>
      let win := (toVal h nb).winner == pid
      hbind (immediateWinsAux b pid rest h) (fun ws h =>
        (h, .ok (if win then c :: ws else ws))))

/-- `_immediate_wins`. -/
def immediateWinsH (b : BoardR) (pid : ℕ) (h : Heap) :
    Heap × Except PyErr (List ℕ) :=
  immediateWinsAux b pid (legalColsR h b) h

/-- `_creates_double_threat`: drop, then at least two distinct immediate
wins (`len(set(wins_next)) >= 2`). -/
def createsDoubleThreatH (b : BoardR) (col pid : ℕ) (h : Heap) :
    Heap × Except PyErr Bool :=
  hbind (cloneAndDropH b col pid h) (fun nb h =>
    hbind (immediateWinsH nb pid h) (fun ws h =>
      (h, .ok (decide (2 ≤ ws.dedup.length)))))

/-- The filtering loops of `_opponent_has_double_threat` and of the
`my_forks` comprehension: keep the columns where `who` creates a double
threat. -/
def filterDoubleThreatAux (b : BoardR) (who : ℕ) :
    List ℕ → Heap → Heap × Except PyErr (List ℕ)
  | [], h => (h, .ok [])
  | c :: rest, h =>
    hbind (createsDoubleThreatH b c who h) (fun dt h =>
      hbind (filterDoubleThreatAux b who rest h) (fun cs h =>
        (h, .ok (if dt then c :: cs else cs))))

/-- `_HeuristicBase._score_position`: the pure sub-scores read the board at
entry; the three `_immediate_wins` calls run in source order. -/
def scorePositionH (w : Weights) (b : BoardR) (lastCol pid : ℕ) (h : Heap) :
    Heap × Except PyErr ℤ :=
  let bv := toVal h b
  let base : ℤ := w.wPot * (countPotentials bv pid : ℤ) +
    w.wCenter * centerBonus bv lastCol +
    detectForkPatterns bv pid +
    (if bv.winner = pid then w.wWin else 0)
  hbind (immediateWinsH b (opp pid) h) (fun oppWins h =>
    hbind (immediateWinsH b pid h) (fun myWins h =>
      hbind (immediateWinsH b (opp pid) h) (fun oppWins2 h =>
        (h, .ok (base - (if oppWins ≠ [] then w.wBlock else 0) +
          (if 2 ≤ myWins.dedup.length then w.wMyFork else 0) -
          (if 2 ≤ oppWins2.dedup.length then w.wOppFork else 0))))))

/-- The scoring argmax loops of `select_move` (tiers 2, 4 and 5): strict
improvement, so the first of equal scores is kept, exactly as
`if score > best_score` does. -/
def bestScoredAux (w : Weights) (b : BoardR) (pid : ℕ) :
    List ℕ → Option (ℕ × ℤ) → Heap → Heap × Except PyErr (Option (ℕ × ℤ))
  | [], best, h => (h, .ok best)
  | c :: rest, best, h =>
    hbind (cloneAndDropH b c pid h) (fun nb h =>
      hbind (scorePositionH w nb c pid h) (fun sc h =>
        bestScoredAux w b pid rest
          (match best with
           | none => some (c, sc)
           | some (bc, bs) => if sc > bs then some (c, sc) else some (bc, bs)) h))

/-- The stable sort key of tier 3: Python sorts by the float `abs(x - mid)`
with `mid = (cols - 1) / 2.0`; doubling gives the equivalent integer key
`|2x - (cols - 1)|` (same comparisons, same ties). -/
def centerKey (cols x : ℕ) : ℕ :=
  (2 * (x : ℤ) - ((cols : ℤ) - 1)).natAbs

/-- Stable insertion: a new element goes after all elements of
less-or-equal key, as Python's stable `list.sort` leaves equals in place. -/
def insertByKey (key : ℕ → ℕ) (x : ℕ) : List ℕ → List ℕ
  | [] => [x]
  | y :: ys => if key y ≤ key x then y :: insertByKey key x ys else x :: y :: ys

/-- Stable insertion sort by key: agrees with any stable sort, in particular
Python's `sorted` / `list.sort`. -/
def sortByKey (key : ℕ → ℕ) : List ℕ → List ℕ
  | [] => []
  | x :: xs => insertByKey key x (sortByKey key xs)

/-- Tier 5 of `select_move`: best composite score over all legal columns. -/
def heurTier5 (w : Weights) (b : BoardR) (player : ℕ) (legal : List ℕ)
    (h : Heap) : Heap × Except PyErr (Option ℕ) :=
  hbind (bestScoredAux w b player legal none h)
    (fun best h => (h, .ok (best.map Prod.fst)))

/-- Tiers 4 and 5 of `select_move`: with the opponent-fork columns computed,
block the best-scoring candidate among them (they are all legal, so the
`c in legal_cols` filter keeps them), else fall through to tier 5. -/
def heurTier45 (w : Weights) (b : BoardR) (player : ℕ) (legal : List ℕ)
    (oppForks : List ℕ) (h : Heap) : Heap × Except PyErr (Option ℕ) :=
  match oppForks with
  | of0 :: ofs =>
    match (of0 :: ofs).filter (fun c => legal.contains c) with
    | [] => heurTier5 w b player legal h
    | c0 :: cs =>
      hbind (bestScoredAux w b player (c0 :: cs) none h)
        (fun best h => (h, .ok (best.map Prod.fst)))
  | [] => heurTier5 w b player legal h

/-- `_HeuristicBase.select_move`: the five priority tiers in source order.
When an argmax loop runs over an empty candidate list Python returns `None`;
the result is therefore an `Option` of a column. -/
def heurSelectMoveH (w : Weights) (b : BoardR) (player : ℕ) (h : Heap) :
    Heap × Except PyErr (Option ℕ) :=
  match legalColsR h b with
  | [] => (h, .error .noLegalMoves)
  | l0 :: ls =>
    hbind (immediateWinsH b player h) (fun myWins h =>
      match myWins with
      | c :: _ => (h, .ok (some c))
      | [] =>
        hbind (immediateWinsH b (opp player) h) (fun oppWins h =>
          match oppWins with
          | oc :: ocs =>
            hbind (bestScoredAux w b player (oc :: ocs) none h)
              (fun best h => (h, .ok (best.map Prod.fst)))
          | [] =>
            hbind (filterDoubleThreatAux b player (l0 :: ls) h)
              (fun myForks h =>
              match myForks with
              | f0 :: fs =>
                (h, .ok (some ((sortByKey (centerKey b.cols)
                  (f0 :: fs)).headD 0)))
              | [] =>
                hbind (filterDoubleThreatAux b (opp player) (l0 :: ls) h)
                  (fun oppForks h =>
                    heurTier45 w b player (l0 :: ls) oppForks h))))

/-! ### The minimax searcher (`minimax_agent.py`) -/

/-- `INF = 10**12`. -/
def INF : ℤ := 10 ^ 12

/-- `_ordered_moves`: legal columns stably sorted by distance to
`center = cols // 2`. -/
def orderedMoves (b : BoardR) (legal : List ℕ) : List ℕ :=
  sortByKey (fun c => ((c : ℤ) - ((b.cols / 2 : ℕ) : ℤ)).natAbs) legal

/-- The maximizing loop of `_minimax`: `rec` is the recursive call one depth
down (the recursion of `_minimax` decreases `depth` at every call).  `val`
is computed with the alpha of loop entry, then `value`/`alpha` are updated
and the loop breaks on `alpha >= beta`. -/
def mmMaxAux (rec : BoardR → ℤ → ℤ → ℕ → Heap → Heap × Except PyErr ℤ)
    (node : BoardR) (mover : ℕ) :
    List ℕ → ℤ → ℤ → ℤ → Heap → Heap × Except PyErr ℤ
  | [], value, _, _, h => (h, .ok value)
  | m :: rest, value, alpha, beta, h =>
    hbind (cloneAndDropH node m mover h) (fun nb h =>
      hbind (rec nb alpha beta m h) (fun cv h =>
        let value' := if cv > value then cv else value
        let alpha' := if value' > alpha then value' else alpha
        if alpha' ≥ beta then (h, .ok value')
        else mmMaxAux rec node mover rest value' alpha' beta h))

/-- The minimizing loop of `_minimax`, updating `beta` symmetrically. -/
def mmMinAux (rec : BoardR → ℤ → ℤ → ℕ → Heap → Heap × Except PyErr ℤ)
    (node : BoardR) (mover : ℕ) :
    List ℕ → ℤ → ℤ → ℤ → Heap → Heap × Except PyErr ℤ
  | [], value, _, _, h => (h, .ok value)
  | m :: rest, value, alpha, beta, h =>
    hbind (cloneAndDropH node m mover h) (fun nb h =>
      hbind (rec nb alpha beta m h) (fun cv h =>
        let value' := if cv < value then cv else value
        let beta' := if value' < beta then value' else beta
        if alpha ≥ beta' then (h, .ok value')
        else mmMinAux rec node mover rest value' alpha beta' h))

/-- `MinimaxAgent._minimax`.  Terminal wins score `±(INF // 2 + depth)`.
At `depth == 0` or with no legal move the source calls
`self.eval_agent.score_position(...)` — an attribute `_HeuristicBase` does
not define (the method is `_score_position`), so Python raises
`AttributeError`; the embedding returns that error.  `last_col` is consumed
only by that unreachable evaluator call. -/
def minimaxH (w : Weights) :
    ℕ → BoardR → ℤ → ℤ → Bool → ℕ → ℕ → Heap → Heap × Except PyErr ℤ
  | depth, node, alpha, beta, maximizing, maxPlayer, _lastCol, h =>
    let win := (toVal h node).winner
    if win = maxPlayer then (h, .ok (INF / 2 + depth))
    else if win = opp maxPlayer then (h, .ok (-(INF / 2) - depth))
    else
      match depth with
      | 0 => (h, .error .attributeError)
      | d + 1 =>
        match legalColsR h node with
        | [] => (h, .error .attributeError)
        | l0 :: ls =>
          if maximizing then
            mmMaxAux (fun nb a bt lc h => minimaxH w d nb a bt false maxPlayer lc h)
              node maxPlayer (orderedMoves node (l0 :: ls)) (-INF) alpha beta h
          else
            mmMinAux (fun nb a bt lc h => minimaxH w d nb a bt true maxPlayer lc h)
              node (opp maxPlayer) (orderedMoves node (l0 :: ls)) INF alpha beta h

/-- The root loop of `MinimaxAgent.select_move`: no beta cutoff at the root,
alpha updated, strict improvement keeps the first-encountered best. -/
def mmSelectAux (w : Weights) (depth : ℕ) (board : BoardR) (player : ℕ) :
    List ℕ → ℤ → ℕ → ℤ → Heap → Heap × Except PyErr ℕ
  | [], _, bestMove, _, h => (h, .ok bestMove)
  | m :: rest, bestValue, bestMove, alpha, h =>
    hbind (cloneAndDropH board m player h) (fun nb h =>
      hbind (minimaxH w depth nb alpha INF false player m h) (fun val h =>
        mmSelectAux w depth board player rest
          (if val > bestValue then val else bestValue)
          (if val > bestValue then m else bestMove)
          (if val > alpha then val else alpha) h))

/-- `MinimaxAgent.select_move` for a configured search depth.  The
`return board.cols // 2` line of the source sits inside the
`if not legal:` block after the raise and is unreachable. -/
def mmSelectMoveH (w : Weights) (depth : ℕ) (board : BoardR) (player : ℕ)
    (h : Heap) : Heap × Except PyErr ℕ :=
  match legalColsR h board with
  | [] => (h, .error .noLegalMoves)
  | l0 :: ls =>
    mmSelectAux w (depth - 1) board player (orderedMoves board (l0 :: ls))
      (-INF) l0 (-INF) h

/-- The all-empty 6×7 heap and board used for the minimax counterexamples. -/
def emptyHeap67 : Heap := List.replicate 6 (List.replicate 7 0)

/-- A standard 6×7 connect-4 board whose six rows are heap rows 0–5. -/
def boardR67 : BoardR := ⟨6, 7, 4, [0, 1, 2, 3, 4, 5], 0⟩

/-- The configuration fields of `MCTSAgent` that the embedding retains. -/
structure MCfg where
  rolloutMaxLen : Option ℕ
  centerBias : Bool

/-- Draw one index below `len` from the head of the oracle stream (the
consumer advances the stream with `List.tail`). -/
def pickIdx (o : List ℕ) (len : ℕ) : ℕ :=
  if len = 0 then 0 else o.headD 0 % len

/-- `_is_terminal`: a winner exists or the board is full. -/
def isTerminalR (h : Heap) (b : BoardR) : Bool :=
  !((toVal h b).winner == 0) || (toVal h b).is_full

/-- First loop of `_policy_move`: the first legal column whose drop wins. -/
def policyWinAux (state : BoardR) (pid : ℕ) :
    List ℕ → Heap → Heap × Except PyErr (Option ℕ)
  | [], h => (h, .ok none)
  | c :: rest, h =>
    hbind (cloneAndDropH state c pid h) (fun b2 h =>
      if (toVal h b2).winner == pid then (h, .ok (some c))
      else policyWinAux state pid rest h)

/-- Inner loop of the second `_policy_move` scan: does the opponent have a
mate in one from `b2`?  Breaks at the first found, as the source does. -/
def oppMateAux (b2 : BoardR) (oppPid : ℕ) :
    List ℕ → Heap → Heap × Except PyErr Bool
  | [], h => (h, .ok false)
  | cc :: rest, h =>
    hbind (cloneAndDropH b2 cc oppPid h) (fun b3 h =>
      if (toVal h b3).winner == oppPid then (h, .ok true)
      else oppMateAux b2 oppPid rest h)

/-- Second loop of `_policy_move`: partition the legal columns into
(safe, danger) by whether the reply hands the opponent a mate in one. -/
def partitionSafeAux (state : BoardR) (pid : ℕ) :
    List ℕ → Heap → Heap × Except PyErr (List ℕ × List ℕ)
  | [], h => (h, .ok ([], []))
  | c :: rest, h =>
    hbind (cloneAndDropH state c pid h) (fun b2 h =>
      hbind (oppMateAux b2 (opp pid) (legalColsR h b2) h) (fun danger h =>
        hbind (partitionSafeAux state pid rest h) (fun sd h =>
          (h, .ok (if danger then (sd.1, c :: sd.2) else (c :: sd.1, sd.2))))))

/-- The final draw of `_policy_move`: an oracle-chosen element of the pool
(covering both the weighted center-biased draw and the uniform fallback);
`random.choice` on an empty pool raises `IndexError`. -/
def policyPick (pool o : List ℕ) (h : Heap) :
    Heap × Except PyErr (ℕ × List ℕ) :=
  match pool with
  | [] => (h, .error .emptyChoice)
  | p0 :: ps =>
    (h, .ok ((p0 :: ps).getD (pickIdx o (p0 :: ps).length) 0, o.tail))

/-- `_policy_move` on the entry-computed legal list: immediate win, else a
safe (or any) pool element. -/
def policyMoveAux (state : BoardR) (pid : ℕ) (legal o : List ℕ) (h : Heap) :
    Heap × Except PyErr (ℕ × List ℕ) :=
  hbind (policyWinAux state pid legal h) (fun winc h =>
    match winc with
    | some c => (h, .ok (c, o))
    | none =>
      hbind (partitionSafeAux state pid legal h) (fun sd h =>
        policyPick (if sd.1 ≠ [] then sd.1 else legal) o h))

/-- `_policy_move`: the legal list is computed once at entry. -/
def policyMoveH (state : BoardR) (pid : ℕ) (o : List ℕ) (h : Heap) :
    Heap × Except PyErr (ℕ × List ℕ) :=
  policyMoveAux state pid (legalColsR h state) o h

/-- `_rollout`: play policy moves until a win, a full board, or the optional
length cap (Python's `if self.rollout_max_len and steps >= ...`: `None` and
`0` are both falsy).  Each step drops one token, so `rows*cols + 1` fuel is
never exhausted; the fuel-0 fallback scores a draw. -/
def rolloutH (cfg : MCfg) :
    ℕ → BoardR → ℕ → ℕ → List ℕ → Heap → Heap × Except PyErr (ℕ × List ℕ)
  | 0, _, _, _, o, h => (h, .ok (0, o))
  | fuel + 1, state, toPlay, steps, o, h =>
    if (toVal h state).winner ≠ 0 then (h, .ok ((toVal h state).winner, o))
    else if (toVal h state).is_full then (h, .ok (0, o))
    else
      hbind (policyMoveH state toPlay o h) (fun co h =>
        hbind (dropHM state co.1 toPlay h) (fun state2 h =>
          if (match cfg.rolloutMaxLen with
              | some l => decide (l ≠ 0) && decide (l ≤ steps + 1)
              | none => false) then (h, .ok (0, co.2))
          else rolloutH cfg fuel state2 (opp toPlay) (steps + 1) co.2 h))

/-- Node at the end of a child-index path. -/
def MNode.getAt : MNode → List ℕ → MNode
  | nd, [] => nd
  | nd, i :: rest => (nd.childAt i).getAt rest

/-- Apply `f` to the node at the end of a child-index path. -/
def MNode.updateAt (f : MNode → MNode) : MNode → List ℕ → MNode
  | nd, [] => f nd
  | nd, i :: rest =>
    match nd with
    | .mk m t n w cs => .mk m t n w (modifyIdx (fun c => c.updateAt f rest) cs i)

/-- The descent loop of `_select`: while the node has children, pick one by
the oracle (the UCT argmax), clone-and-drop its move, and stop at an
unvisited child or a terminal state.  Fuel bounds the tree depth (each level
holds one more token than its parent, so `rows*cols + 2` suffices). -/
def selectAux :
    ℕ → MNode → BoardR → List ℕ → List ℕ → Heap →
      Heap × Except PyErr (List ℕ × MNode × BoardR × List ℕ)
  | 0, node, state, path, o, h => (h, .ok (path, node, state, o))
  | fuel + 1, node, state, path, o, h =>
    match node.children with
    | [] => (h, .ok (path, node, state, o))
    | c0 :: cs =>
      hbind (cloneAndDropH state
          ((c0 :: cs).getD (pickIdx o (c0 :: cs).length) default).move
          node.toPlay h) (fun state2 h =>
        if ((c0 :: cs).getD (pickIdx o (c0 :: cs).length) default).visits = 0
            || isTerminalR h state2 then
          (h, .ok (path ++ [pickIdx o (c0 :: cs).length],
            (c0 :: cs).getD (pickIdx o (c0 :: cs).length) default, state2,
            o.tail))
        else selectAux fuel ((c0 :: cs).getD (pickIdx o (c0 :: cs).length)
          default) state2 (path ++ [pickIdx o (c0 :: cs).length]) o.tail h)

/-- `_select`: clone the root state, then descend. -/
def selectH (root : MNode) (rootState : BoardR) (o : List ℕ) (h : Heap) :
    Heap × Except PyErr (List ℕ × MNode × BoardR × List ℕ) :=
  hbind (cloneBoardH rootState h) (fun state h =>
    selectAux (rootState.rows * rootState.cols + 2) root state [] o h)

/-- `_expand`: one child per legal column, to-play flipped, in column order
(the insertion order of the Python dict). -/
def expandChildren (h : Heap) (state : BoardR) (tp : ℕ) : List MNode :=
  (legalColsR h state).map (fun col => MNode.mk col (opp tp) 0 0 [])

/-- `_iterate`: selection, expansion (with a descent into one oracle-chosen
new child), rollout, and backpropagation along the visited path. -/
def iterateH (cfg : MCfg) (root : MNode) (rootState : BoardR) (o : List ℕ)
    (h : Heap) : Heap × Except PyErr (MNode × List ℕ) :=
  hbind (selectH root rootState o h) (fun res h =>
    match res with
    | (path, leaf, leafState, o1) =>
      if isTerminalR h leafState then
        hbind (rolloutH cfg (leafState.rows * leafState.cols + 1)
            leafState leaf.toPlay 0 o1 h) (fun out h =>
          (h, .ok (root.backprop path out.1, out.2)))
      else
        match expandChildren h leafState leaf.toPlay with
        | [] =>
          hbind (rolloutH cfg (leafState.rows * leafState.cols + 1)
              leafState leaf.toPlay 0 o1 h) (fun out h =>
            (h, .ok ((root.updateAt (fun nd =>
              match nd with
              | .mk m t n w _ => .mk m t n w []) path).backprop path out.1,
              out.2)))
        | k0 :: ks =>
          hbind (cloneAndDropH leafState
              ((k0 :: ks).getD (pickIdx o1 (k0 :: ks).length) default).move
              leaf.toPlay h) (fun st2 h =>
            hbind (rolloutH cfg (st2.rows * st2.cols + 1) st2
                ((k0 :: ks).getD (pickIdx o1 (k0 :: ks).length) default).toPlay
                0 o1.tail h) (fun out h =>
              (h, .ok ((root.updateAt (fun nd =>
                match nd with
                | .mk m t n w _ => .mk m t n w (k0 :: ks)) path).backprop
                (path ++ [pickIdx o1 (k0 :: ks).length]) out.1, out.2)))))

/-- The iteration budget loop of `select_move` (simulation count or
deadline; both run whole iterations, abstracted by a count). -/
def mctsLoop (cfg : MCfg) :
    ℕ → MNode → BoardR → List ℕ → Heap → Heap × Except PyErr (MNode × List ℕ)
  | 0, root, _, o, h => (h, .ok (root, o))
  | n + 1, root, rootState, o, h =>
    hbind (iterateH cfg root rootState o h) (fun ro h =>
      mctsLoop cfg n ro.1 rootState ro.2 h)

/-- `max(root.children.values(), key = lambda n: n.N)`: Python's `max`
returns the first of equally visited children. -/
def argmaxVisits (c0 : MNode) (cs : List MNode) : MNode :=
  cs.foldl (fun best nd => if nd.visits > best.visits then nd else best) c0

/-- `MCTSAgent.select_move`: build a fresh tree from a clone of the board,
run the budgeted iterations, then return the most-visited root child's move;
with no children, fall back to a random legal column or raise. -/
def mctsSelectMoveH (cfg : MCfg) (sims : ℕ) (o : List ℕ) (board : BoardR)
    (player : ℕ) (h : Heap) : Heap × Except PyErr ℕ :=
  hbind (cloneBoardH board h) (fun rootState h =>
    hbind (mctsLoop cfg sims (MNode.mk 0 player 0 0 []) rootState o h)
      (fun ro h =>
      match (ro.1).children with
      | [] =>
        match legalColsR h board with
        | [] => (h, .error .noLegalMoves)
        | l0 :: ls =>
          (h, .ok ((l0 :: ls).getD (pickIdx ro.2 (l0 :: ls).length) 0))
      | c0 :: cs => (h, .ok (argmaxVisits c0 cs).move)))

/-! ### The frame property (claim C6): search never writes the caller's rows

Every mutation a search component performs goes through `dropHM`, and every
`dropHM` receiver is a clone whose rows were freshly allocated during the
call; so the heap always *extends* the caller's heap: it only grows, and the
prefix holding the caller's rows is untouched. -/

/-- `h2` extends `h` below index `n`: no shrinking, prefix `n` unchanged. -/
def ExtendsOn (n : ℕ) (h h2 : Heap) : Prop :=
  h.length ≤ h2.length ∧ ∀ i < n, h2[i]? = h[i]?

/-- All row references of the board lie at or above `n` (the board's rows
are fresh relative to the first `n` heap cells). -/
def RefsGE (n : ℕ) (b : BoardR) : Prop := ∀ ref ∈ b.gridRefs, n ≤ ref

/-- Structural sanity of a heap board: one row reference per row. -/
def WFR (b : BoardR) : Prop := b.gridRefs.length = b.rows

/-! ### Lemmas about the downward scan of `Board.drop` -/

theorem find?_reverse_range {p : ℕ → Bool} :
    ∀ {n r : ℕ}, ((List.range n).reverse.find? p = some r) →
      r < n ∧ p r = true ∧ ∀ r', r < r' → r' < n → p r' = false := by
  intro n
  induction n with
  | zero => intro r h; simp [List.range_zero] at h
  | succ n ih =>
    intro r h
    rw [List.range_succ, List.reverse_append] at h
    simp only [List.reverse_singleton, List.singleton_append, List.find?] at h
    by_cases hn : p n
    · rw [hn] at h
      simp only [Option.some.injEq] at h
      subst h
      exact ⟨Nat.lt_succ_self _, hn, fun r' h1 h2 => absurd h2 (by omega)⟩
    · rw [Bool.not_eq_true] at hn
      rw [hn] at h
      obtain ⟨h1, h2, h3⟩ := ih h
      refine ⟨Nat.lt_succ_of_lt h1, h2, fun r' hlt hub => ?_⟩
      rcases Nat.lt_succ_iff_lt_or_eq.mp hub with h' | h'
      · exact h3 r' hlt h'
      · subst h'; exact hn

theorem find?_reverse_range_isSome {p : ℕ → Bool} {n : ℕ}
    (h : ∃ r < n, p r = true) : ((List.range n).reverse.find? p).isSome := by
  rw [List.find?_isSome]
  obtain ⟨r, hr, hp⟩ := h
  exact ⟨r, by simpa using hr, hp⟩

theorem findEmptyRow_spec {b : Board} {col r : ℕ}
    (h : b.findEmptyRow col = some r) :
    r < b.rows ∧ b.cell r col = 0 ∧
      ∀ r', r < r' → r' < b.rows → b.cell r' col ≠ 0 := by
  obtain ⟨h1, h2, h3⟩ := find?_reverse_range h
  refine ⟨h1, by simpa using h2, fun r' hlt hub => ?_⟩
  have := h3 r' hlt hub
  simpa using this

theorem findEmptyRow_isSome_of_top {b : Board} {col : ℕ}
    (hrows : 0 < b.rows) (htop : b.cell 0 col = 0) :
    ∃ r, b.findEmptyRow col = some r := by
  have h := find?_reverse_range_isSome (p := fun r => b.cell r col == 0)
    (n := b.rows) ⟨0, hrows, by simpa using htop⟩
  exact Option.isSome_iff_exists.mp h

/-! ### Lemmas about `Board.place` -/

theorem cell_place_self {b : Board} {r col p : ℕ} (hWF : b.WF)
    (hr : r < b.rows) (hc : col < b.cols) :
    (b.place r col p).cell r col = p := by
  obtain ⟨hlen, hrow, _, _⟩ := hWF
  have hr' : r < b.grid.length := by rw [hlen]; exact hr
  have hmem : b.grid[r]?.getD [] ∈ b.grid := by
    rw [List.getElem?_eq_getElem hr']
    exact List.getElem_mem _
  have hclen : (b.grid[r]?.getD []).length = b.cols := hrow _ hmem
  unfold Board.place Board.cell
  simp only
  rw [List.getElem?_set_eq_of_lt _ hr']
  simp only [Option.getD_some]
  rw [List.getElem?_set_eq_of_lt _ (by rw [hclen]; exact hc)]
  rfl

theorem cell_place_ne {b : Board} {r col p r' c' : ℕ}
    (h : r' ≠ r ∨ c' ≠ col) :
    (b.place r col p).cell r' c' = b.cell r' c' := by
  unfold Board.place Board.cell
  simp only
  rcases h with h | h
  · rw [List.getElem?_set_ne (Ne.symm h)]
  · by_cases hr : r' = r
    · subst hr
      by_cases hin : r' < b.grid.length
      · rw [List.getElem?_set_eq_of_lt _ hin]
        simp only [Option.getD_some]
        rw [List.getElem?_set_ne (Ne.symm h)]
      · rw [List.set_eq_of_length_le (by omega)]
    · rw [List.getElem?_set_ne (Ne.symm hr)]

theorem sum_map_set {α : Type} (f : α → ℕ) :
    ∀ (l : List α) (i : ℕ) (x : α), i < l.length →
      ((l.set i x).map f).sum + f (l.getD i x) = (l.map f).sum + f x := by
  intro l
  induction l with
  | nil => intro i x h; simp at h
  | cons a t ih =>
    intro i x h
    cases i with
    | zero =>
      simp only [List.set_cons_zero, List.getD_cons_zero, List.map_cons,
        List.sum_cons]
      omega
    | succ i =>
      simp only [List.set_cons_succ, List.map_cons, List.sum_cons,
        List.getD_cons_succ]
      have := ih i x (by simpa using h)
      omega

theorem countP_set (q : ℕ → Bool) :
    ∀ (l : List ℕ) (i : ℕ) (x : ℕ), i < l.length →
      (l.set i x).countP q + (if q (l.getD i x) then 1 else 0) =
        l.countP q + (if q x then 1 else 0) := by
  intro l
  induction l with
  | nil => intro i x h; simp at h
  | cons a t ih =>
    intro i x h
    cases i with
    | zero =>
      simp only [List.set_cons_zero, List.getD_cons_zero, List.countP_cons]
      by_cases hqa : q a <;> by_cases hqx : q x <;> simp [hqa, hqx]
    | succ i =>
      simp only [List.set_cons_succ, List.getD_cons_succ, List.countP_cons,
        List.getD, List.get?_eq_getElem?]
      have := ih i x (by simpa using h)
      simp only [List.getD, List.get?_eq_getElem?] at this
      by_cases hqa : q a <;> simp [hqa] <;> omega

theorem countTokens_place {b : Board} {r col p : ℕ} (hWF : b.WF)
    (hr : r < b.rows) (hc : col < b.cols) (hcell : b.cell r col = 0)
    (hp : p ≠ 0) :
    (b.place r col p).countTokens = b.countTokens + 1 := by
  obtain ⟨hlen, hrow, _, _⟩ := hWF
  have hr' : r < b.grid.length := by rw [hlen]; exact hr
  have hmem : b.grid[r]?.getD [] ∈ b.grid := by
    rw [List.getElem?_eq_getElem hr']
    exact List.getElem_mem _
  have hclen : (b.grid[r]?.getD []).length = b.cols := hrow _ hmem
  have hc' : col < (b.grid[r]?.getD []).length := by rw [hclen]; exact hc
  unfold Board.countTokens Board.place
  simp only
  have hsum := sum_map_set (fun row => row.countP (fun x => x ≠ 0)) b.grid r
    ((b.grid[r]?.getD []).set col p) hr'
  have hgetD : b.grid.getD r ((b.grid[r]?.getD []).set col p) = b.grid[r]?.getD [] := by
    rw [List.getD_eq_getElem _ _ hr', List.getElem?_eq_getElem hr']
    rfl
  rw [hgetD] at hsum
  have hcnt := countP_set (fun x => decide ¬ x = 0) (b.grid[r]?.getD []) col p hc'
  have hcellval : (b.grid[r]?.getD []).getD col p = 0 := by
    unfold Board.cell at hcell
    rw [List.getD_eq_getElem _ _ hc']
    rw [List.getElem?_eq_getElem hc'] at hcell
    exact hcell
  rw [hcellval] at hcnt
  simp [hp] at hcnt
  simp only [decide_not] at hsum ⊢
  omega

/-! ### Claim C7: dropping into a full column -/

/-- C7 (confirmed): for every board, player 1 or 2, and in-range column whose
top cell is non-empty, `drop` fails with the column-full error and the board
(its grid and move counter) is returned exactly as it was. -/
theorem drop_full_column (b : Board) (col p : ℕ)
    (hp : p = 1 ∨ p = 2) (hc : col < b.cols) (hfull : b.cell 0 col ≠ 0) :
    b.dropM col p = (.error .columnFull, b) := by
  unfold Board.dropM
  rw [if_neg (not_not_intro hp), if_neg (not_not_intro hc), if_pos hfull]

/-- Witness for C7 on a concrete 3×3 board whose column 0 is full. -/
theorem drop_full_column_witness :
    (Board.mk 3 3 3 [[1, 0, 0], [2, 0, 0], [1, 0, 0]] 3).dropM 0 1 =
      (.error .columnFull, Board.mk 3 3 3 [[1, 0, 0], [2, 0, 0], [1, 0, 0]] 3) :=
  drop_full_column _ 0 1 (Or.inl rfl) (by decide) (by decide)

/-! ### Claim C10: the internal-error branch of `Board.drop` is unreachable -/

/-- C10 (confirmed): on a well-formed board, `drop` can only fail with one of
the three guard errors, and when the three guards pass (player 1 or 2, column
in range, top cell empty) the downward scan finds an empty cell, so `drop`
places exactly one token into a previously empty cell and returns `True` —
the trailing `RuntimeError` branch is unreachable. -/
theorem drop_guard_complete (b : Board) (col p : ℕ) (hWF : b.WF) :
    (∀ e, (b.dropM col p).1 = .error e →
      e = .invalidPlayer ∨ e = .columnRange ∨ e = .columnFull) ∧
    ((p = 1 ∨ p = 2) → col < b.cols → b.cell 0 col = 0 →
      ∃ r < b.rows, b.cell r col = 0 ∧
        b.dropM col p = (.ok true, b.place r col p) ∧
        (b.place r col p).countTokens = b.countTokens + 1) := by
  have hrows : 0 < b.rows := hWF.2.2.1
  constructor
  · intro e he
    unfold Board.dropM at he
    by_cases h1 : p = 1 ∨ p = 2
    · rw [if_neg (not_not_intro h1)] at he
      by_cases h2 : col < b.cols
      · rw [if_neg (by simpa using h2)] at he
        by_cases h3 : b.cell 0 col ≠ 0
        · rw [if_pos h3] at he
          simp only [Except.error.injEq] at he
          exact Or.inr (Or.inr he.symm)
        · rw [if_neg h3] at he
          push_neg at h3
          obtain ⟨r, hr⟩ := findEmptyRow_isSome_of_top hrows h3
          rw [hr] at he
          simp at he
      · rw [if_pos (by simpa using h2)] at he
        simp only [Except.error.injEq] at he
        exact Or.inr (Or.inl he.symm)
    · rw [if_pos h1] at he
      simp only [Except.error.injEq] at he
      exact Or.inl he.symm
  · intro hp hc htop
    obtain ⟨r, hr⟩ := findEmptyRow_isSome_of_top hrows htop
    obtain ⟨hrlt, hcell, _⟩ := findEmptyRow_spec hr
    refine ⟨r, hrlt, hcell, ?_, ?_⟩
    · unfold Board.dropM
      rw [if_neg (not_not_intro hp), if_neg (not_not_intro hc),
        if_neg (by simpa using htop), hr]
    · exact countTokens_place hWF hrlt hc hcell (by rcases hp with h | h <;> omega)

/-! ### The board invariant (claim C8) -/

theorem cell_empty_grid (rows cols connect moves r c : ℕ) :
    (Board.mk rows cols connect
      (List.replicate rows (List.replicate cols 0)) moves).cell r c = 0 := by
  unfold Board.cell
  simp only [List.getElem?_replicate]
  by_cases hr : r < rows <;> by_cases hc : c < cols <;> simp [hr, hc]

theorem countTokens_empty (rows cols connect moves : ℕ) :
    (Board.mk rows cols connect
      (List.replicate rows (List.replicate cols 0)) moves).countTokens = 0 := by
  unfold Board.countTokens
  simp only [List.map_replicate, List.sum_replicate, smul_eq_mul]
  simp

theorem WF_empty {rows cols connect : ℕ} (hr : 0 < rows) (hc : 0 < cols) :
    (Board.mk rows cols connect
      (List.replicate rows (List.replicate cols 0)) 0).WF := by
  refine ⟨by simp, ?_, hr, hc⟩
  intro row hrow
  rw [List.eq_of_mem_replicate hrow]
  simp

theorem Inv_empty {rows cols connect : ℕ} (hr : 0 < rows) :
    (Board.mk rows cols connect
      (List.replicate rows (List.replicate cols 0)) 0).Inv := by
  refine ⟨?_, ?_, ?_⟩
  · intro c _
    exact ⟨fun _ => ⟨0, hr, cell_empty_grid rows cols connect 0 0 c⟩,
      fun _ => cell_empty_grid rows cols connect 0 0 c⟩
  · intro c _ r _ habs
    exact absurd (cell_empty_grid rows cols connect 0 r c) habs
  · simpa using (countTokens_empty rows cols connect 0).symm

/-- From the gravity half of the invariant, an empty cell anywhere in a column
forces the top cell of that column to be empty. -/
theorem zero_ascends {b : Board}
    (hgrav : ∀ c < b.cols, ∀ r, r + 1 < b.rows → b.cell r c ≠ 0 →
      b.cell (r + 1) c ≠ 0)
    {c : ℕ} (hc : c < b.cols) :
    ∀ r, r < b.rows → b.cell r c = 0 → b.cell 0 c = 0 := by
  intro r
  induction r with
  | zero => exact fun _ h => h
  | succ r ih =>
    intro hrlt hzero
    by_cases hr0 : b.cell r c = 0
    · exact ih (by omega) hr0
    · exact absurd hzero (hgrav c hc r hrlt hr0)

/-- Inversion of a successful `drop`. -/
theorem dropM_ok {b b' : Board} {col p : ℕ} {x : Bool}
    (h : b.dropM col p = (.ok x, b')) :
    (p = 1 ∨ p = 2) ∧ col < b.cols ∧ b.cell 0 col = 0 ∧
      ∃ r, b.findEmptyRow col = some r ∧ b' = b.place r col p ∧ x = true := by
  unfold Board.dropM at h
  by_cases h1 : p = 1 ∨ p = 2
  · rw [if_neg (not_not_intro h1)] at h
    by_cases h2 : col < b.cols
    · rw [if_neg (not_not_intro h2)] at h
      by_cases h3 : b.cell 0 col ≠ 0
      · rw [if_pos h3] at h; simp at h
      · rw [if_neg h3] at h
        push_neg at h3
        refine ⟨h1, h2, h3, ?_⟩
        match hfind : b.findEmptyRow col with
        | some r =>
          rw [hfind] at h
          simp only [Prod.mk.injEq, Except.ok.injEq] at h
          exact ⟨r, rfl, h.2.symm, h.1.symm⟩
        | none => rw [hfind] at h; simp at h
    · rw [if_pos (by simpa using h2)] at h; simp at h
  · rw [if_pos (by simpa using h1)] at h; simp at h

theorem WF_place {b : Board} {r col p : ℕ} (hWF : b.WF) :
    (b.place r col p).WF := by
  obtain ⟨hlen, hrow, hr, hc⟩ := hWF
  refine ⟨by simp [Board.place, hlen], ?_, hr, hc⟩
  intro row hmem
  unfold Board.place at hmem
  simp only at hmem
  by_cases hin : r < b.grid.length
  · rcases List.mem_or_eq_of_mem_set hmem with h | h
    · exact hrow _ h
    · subst h
      rw [List.length_set, List.getElem?_eq_getElem hin]
      exact hrow _ (List.getElem_mem _)
  · rw [List.set_eq_of_length_le (le_of_not_lt hin)] at hmem
    exact hrow _ hmem

/-- C8 (confirmed): the spec's board invariant holds after construction and
after `reset`, and is preserved (together with shape well-formedness) by
every successful `drop`. -/
theorem board_invariant :
    (∀ rows cols connect b, mkBoard rows cols connect = .ok b → b.WF ∧ b.Inv) ∧
    (∀ b : Board, b.WF → b.reset.WF ∧ b.reset.Inv) ∧
    (∀ (b : Board) (col p : ℕ) (x : Bool) (b' : Board),
      b.WF → b.Inv → b.dropM col p = (.ok x, b') → b'.WF ∧ b'.Inv) := by
  refine ⟨?_, ?_, ?_⟩
  · intro rows cols connect b h
    unfold mkBoard at h
    by_cases hv : dimsValid rows cols connect
    · rw [if_pos hv] at h
      simp only [Except.ok.injEq] at h
      subst h
      unfold dimsValid at hv
      simp only [Bool.and_eq_true, decide_eq_true_eq] at hv
      exact ⟨WF_empty (by omega) (by omega), Inv_empty (by omega)⟩
    · rw [if_neg hv] at h; simp at h
  · intro b hWF
    obtain ⟨_, _, hr, hc⟩ := hWF
    exact ⟨WF_empty hr hc, Inv_empty hr⟩
  · intro b col p x b' hWF hInv hdrop
    obtain ⟨hp, hcol, htop, r, hfind, hb', hx⟩ := dropM_ok hdrop
    obtain ⟨hrlt, hrcell, hbelow⟩ := findEmptyRow_spec hfind
    have hpne : p ≠ 0 := by rcases hp with h | h <;> omega
    subst hb'
    have hgrav : ∀ c' < (b.place r col p).cols, ∀ r',
        r' + 1 < (b.place r col p).rows → (b.place r col p).cell r' c' ≠ 0 →
          (b.place r col p).cell (r' + 1) c' ≠ 0 := by
      intro c' hc' r' hr' hnz
      have hc'' : c' < b.cols := hc'
      have hr'' : r' + 1 < b.rows := hr'
      by_cases hcc : c' = col
      · subst hcc
        by_cases hre : r' = r
        · subst hre
          rw [cell_place_ne (Or.inl (by omega))]
          exact hbelow (r' + 1) (by omega) hr''
        · rw [cell_place_ne (Or.inl hre)] at hnz
          by_cases hsucc : r' + 1 = r
          · rw [hsucc, cell_place_self hWF hrlt hcol]
            exact hpne
          · rw [cell_place_ne (Or.inl hsucc)]
            exact hInv.2.1 c' hc'' r' hr'' hnz
      · rw [cell_place_ne (Or.inr hcc)] at hnz
        rw [cell_place_ne (Or.inr hcc)]
        exact hInv.2.1 c' hc'' r' hr'' hnz
    refine ⟨WF_place hWF, ?_, hgrav, ?_⟩
    · intro c hc
      refine ⟨fun h0 => ⟨0, hWF.2.2.1, h0⟩,
        fun ⟨re, hre, hrez⟩ => zero_ascends hgrav hc re hre hrez⟩
    · show (b.place r col p).moves = (b.place r col p).countTokens
      rw [countTokens_place hWF hrlt hcol hrcell hpne]
      show b.moves + 1 = b.countTokens + 1
      rw [hInv.2.2]

/-- Witness for C8: the drop clause applied on a concrete empty 3×3 board. -/
theorem board_invariant_witness :
    ((Board.mk 3 3 3 [[0, 0, 0], [0, 0, 0], [0, 0, 0]] 0).dropM 2 1).2.WF ∧
      ((Board.mk 3 3 3 [[0, 0, 0], [0, 0, 0], [0, 0, 0]] 0).dropM 2 1).2.Inv :=
  board_invariant.2.2 (Board.mk 3 3 3 [[0, 0, 0], [0, 0, 0], [0, 0, 0]] 0) 2 1 true
    ((Board.mk 3 3 3 [[0, 0, 0], [0, 0, 0], [0, 0, 0]] 0).dropM 2 1).2
    (by decide) (by decide) (by decide)

/-! ### The heuristic evaluator (`heuristic_agent.py`), read-only parts -/

/-! ### Claim C2: the fork-pattern scan is dead for connect ≠ 3 -/

theorem hwindow_length (b : Board) (r c : ℕ) :
    (hwindow b r c).length = b.connect := by simp [hwindow]

theorem dwindow_length (b : Board) (r c : ℕ) :
    (dwindow b r c).length = b.connect := by simp [dwindow]

theorem uwindow_length (b : Board) (r c : ℕ) :
    (uwindow b r c).length = b.connect := by simp [uwindow]

/-- C2 (code bug): the pattern comparison of `_detect_fork_patterns` compares
each `connect`-cell window with the three-element list `[0, me * (k - 2), 0]`
(integer multiplication, not list repetition), so for every board whose
`connect` is not 3 the fork sub-score is identically zero — in particular on a
connect-4 board containing the spec's both-ends-playable open template, where
the claim demands a nonzero fork bonus. -/
theorem fork_pattern_scan_dead :
    (∀ (b : Board) (pid : ℕ), b.connect ≠ 3 → detectForkPatterns b pid = 0) ∧
    specOpenForkPresentH forkBoardC2 1 = true ∧
    detectForkPatterns forkBoardC2 1 = 0 := by
  refine ⟨?_, by decide, by decide⟩
  intro b pid hk
  have hlit : ∀ who, (forkPatternLiteral who b.connect).length = 3 := by
    intro who; rfl
  have hne : ∀ (w : List ℕ), w.length = b.connect →
      ∀ who, w ≠ forkPatternLiteral who b.connect := by
    intro w hw who heq
    exact hk (by rw [← hw, heq, hlit])
  unfold detectForkPatterns forkScoreHoriz forkScoreDiagDR forkScoreDiagUR
  have hz1 : ∀ (f : ℕ → ℤ) (l : List ℕ), (∀ x ∈ l, f x = 0) →
      ((l.map f).sum : ℤ) = 0 := by
    intro f l h
    apply List.sum_eq_zero
    intro x hx
    rw [List.mem_map] at hx
    obtain ⟨y, hy, rfl⟩ := hx
    exact h y hy
  rw [hz1 _ _ ?_, hz1 _ _ ?_, hz1 _ _ ?_]
  · simp
  · intro r _
    apply hz1
    intro c _
    rw [if_neg (hne _ (uwindow_length b r c) _),
      if_neg (hne _ (uwindow_length b r c) _)]
    simp
  · intro r _
    apply hz1
    intro c _
    rw [if_neg (hne _ (dwindow_length b r c) _),
      if_neg (hne _ (dwindow_length b r c) _)]
  · intro r _
    apply hz1
    intro c _
    rw [if_neg (hne _ (hwindow_length b r c) _),
      if_neg (hne _ (hwindow_length b r c) _)]
    simp

/-- Witness for C2's universally quantified part at a concrete board. -/
theorem fork_pattern_scan_dead_witness :
    detectForkPatterns forkBoardC2 2 = 0 :=
  fork_pattern_scan_dead.1 forkBoardC2 2 (by decide)

/-! ### Claim C4: the center-bias term -/

/-- The exact value of the distance used by `_center_bonus`. -/
theorem dist_abs_eq (b : Board) (col : ℕ) :
    |(col : ℚ) - ((b.cols : ℚ) - 1) / 2| =
      (((2 * (col : ℤ) - ((b.cols : ℤ) - 1)).natAbs : ℤ) : ℚ) / ((2 : ℕ) : ℚ) := by
  have hrew : (col : ℚ) - ((b.cols : ℚ) - 1) / 2 =
      ((2 * (col : ℤ) - ((b.cols : ℤ) - 1) : ℤ) : ℚ) / ((2 : ℕ) : ℚ) := by
    push_cast
    ring
  rw [hrew, abs_div, abs_of_nonneg (by norm_num : (0 : ℚ) ≤ ((2 : ℕ) : ℚ))]
  rw [← Int.cast_abs, Int.abs_eq_natAbs]

/-- `_center_bonus` computed by integer arithmetic. -/
theorem centerBonus_trunc (b : Board) (col : ℕ) :
    centerBonus b col =
      -(((2 * (col : ℤ) - ((b.cols : ℤ) - 1)).natAbs / 2 : ℕ) : ℤ) := by
  unfold centerBonus
  rw [dist_abs_eq, Rat.floor_intCast_div_natCast, Int.ofNat_div]
  rfl

/-- C4 counterexample: with 8 columns the real midpoint is 3.5, so the claim
makes column 3's center bias −0.5; the code truncates, producing 0. -/
theorem center_bias_counterexample :
    ¬ (((centerBonus boardC4 3 : ℤ) : ℚ) =
        -|((3 : ℕ) : ℚ) - ((boardC4.cols : ℚ) - 1) / 2|) := by
  rw [centerBonus_trunc, dist_abs_eq]
  rw [show boardC4.cols = 8 from rfl]
  rw [show (2 * ((3 : ℕ) : ℤ) - (((8 : ℕ) : ℤ) - 1)).natAbs = 1 by decide]
  norm_num

/-- C4 (amended): the center-bias term equals the *negation of the integer
truncation* of the absolute distance from the real midpoint — equivalently
`-(|2·col − (cols−1)| / 2)` with integer division.  For odd column counts
this coincides with the claim's exact negative real distance; for even
counts the fractional half is dropped (8 columns, column 3 ↦ 0, not −0.5). -/
theorem center_bonus_characterization :
    (∀ (b : Board) (col : ℕ), centerBonus b col =
      -(((2 * (col : ℤ) - ((b.cols : ℤ) - 1)).natAbs / 2 : ℕ) : ℤ)) ∧
    (∀ (b : Board) (col : ℕ), Odd b.cols →
      ((centerBonus b col : ℤ) : ℚ) = -|(col : ℚ) - ((b.cols : ℚ) - 1) / 2|) := by
  refine ⟨centerBonus_trunc, fun b col hodd => ?_⟩
  rw [centerBonus_trunc, dist_abs_eq]
  have hdvd2 : (2 : ℤ) ∣ (2 * (col : ℤ) - ((b.cols : ℤ) - 1)) := by
    obtain ⟨m, hm⟩ := hodd
    have hcast : (b.cols : ℤ) = 2 * m + 1 := by exact_mod_cast hm
    rw [hcast]
    exact ⟨(col : ℤ) - m, by ring⟩
  have hdvd : 2 ∣ (2 * (col : ℤ) - ((b.cols : ℤ) - 1)).natAbs := by
    have h := Int.natAbs_dvd_natAbs.mpr hdvd2
    simpa using h
  have hq : ((((2 * (col : ℤ) - ((b.cols : ℤ) - 1)).natAbs / 2 : ℕ)) : ℚ) =
      ((((2 * (col : ℤ) - ((b.cols : ℤ) - 1)).natAbs : ℕ)) : ℚ) / 2 :=
    Nat.cast_div hdvd (by norm_num)
  rw [Int.cast_neg, Int.cast_natCast, hq]
  push_cast
  ring_nf
  rw [Int.cast_natAbs]
  push_cast
  ring_nf

/-! ### Claim C3: how a drop changes the legal-move count -/

theorem valid_moves_count (b : Board) :
    b.valid_moves.count true =
      (List.range b.cols).countP (fun c => b.cell 0 c == 0) := by
  unfold Board.valid_moves
  rw [List.count, List.countP_map]
  apply List.countP_congr
  intro c _
  simp [Function.comp]

/-- How one placed token changes the number of legal columns: unchanged if the
column's top cell is still empty afterwards, one less if the drop filled it. -/
theorem legalCount_place {b : Board} {col p r : ℕ}
    (hcol : col < b.cols) (htop : b.cell 0 col = 0) :
    ((b.place r col p).valid_moves.count true =
      (if (b.place r col p).cell 0 col = 0 then b.valid_moves.count true
       else b.valid_moves.count true - 1)) ∧
    (b.place r col p).valid_moves.count true ≤ b.valid_moves.count true ∧
    0 < b.valid_moves.count true := by
  have hmemcol : col ∈ List.range b.cols := by simpa using hcol
  have hperm := List.perm_cons_erase hmemcol
  have hcols' : (b.place r col p).cols = b.cols := rfl
  rw [valid_moves_count, valid_moves_count, hcols']
  rw [hperm.countP_eq, hperm.countP_eq]
  simp only [List.countP_cons]
  have herase : ((List.range b.cols).erase col).countP
        (fun c => (b.place r col p).cell 0 c == 0) =
      ((List.range b.cols).erase col).countP (fun c => b.cell 0 c == 0) := by
    apply List.countP_congr
    intro c hcmem
    have hne : c ≠ col :=
      (List.Nodup.mem_erase_iff (List.nodup_range _) |>.mp hcmem).1
    rw [cell_place_ne (Or.inr hne)]
  rw [herase]
  simp only [htop]
  by_cases hafter : (b.place r col p).cell 0 col = 0 <;> simp [hafter]

/-- C3 counterexample: a successful drop into an empty 3×3 board leaves the
legal-move count unchanged (3, not 3 − 1 = 2), refuting the claim that the
count is always exactly one less after a successful drop. -/
theorem legal_count_counterexample :
    ((Board.mk 3 3 3 [[0, 0, 0], [0, 0, 0], [0, 0, 0]] 0).dropM 1 1).1 = .ok true ∧
    ¬ ((((Board.mk 3 3 3 [[0, 0, 0], [0, 0, 0], [0, 0, 0]] 0).dropM 1 1).2).valid_moves.count true =
        (Board.mk 3 3 3 [[0, 0, 0], [0, 0, 0], [0, 0, 0]] 0).valid_moves.count true - 1) := by
  decide

/-- C3 (amended): after a successful `drop` into `col` the legal-move
true-count never increases; it is exactly one less than before when the drop
filled column `col` (its top cell is now occupied) and unchanged otherwise.
The count before the drop is positive, so the decrement is genuine. -/
theorem legal_count_after_drop (b : Board) (col p : ℕ) (x : Bool) (b' : Board)
    (h : b.dropM col p = (.ok x, b')) :
    (b'.valid_moves.count true =
      (if b'.cell 0 col = 0 then b.valid_moves.count true
       else b.valid_moves.count true - 1)) ∧
    b'.valid_moves.count true ≤ b.valid_moves.count true ∧
    0 < b.valid_moves.count true := by
  obtain ⟨hp, hcol, htop, r, hfind, hb', hx⟩ := dropM_ok h
  subst hb'
  exact legalCount_place hcol htop

/-- Witness for the amended C3 on a concrete empty 3×3 board. -/
theorem legal_count_after_drop_witness :
    ((((Board.mk 3 3 3 [[0, 0, 0], [0, 0, 0], [0, 0, 0]] 0).dropM 0 2).2).valid_moves.count true =
      (if (((Board.mk 3 3 3 [[0, 0, 0], [0, 0, 0], [0, 0, 0]] 0).dropM 0 2).2).cell 0 0 = 0
       then (Board.mk 3 3 3 [[0, 0, 0], [0, 0, 0], [0, 0, 0]] 0).valid_moves.count true
       else (Board.mk 3 3 3 [[0, 0, 0], [0, 0, 0], [0, 0, 0]] 0).valid_moves.count true - 1)) ∧
    (((Board.mk 3 3 3 [[0, 0, 0], [0, 0, 0], [0, 0, 0]] 0).dropM 0 2).2).valid_moves.count true ≤
      (Board.mk 3 3 3 [[0, 0, 0], [0, 0, 0], [0, 0, 0]] 0).valid_moves.count true ∧
    0 < (Board.mk 3 3 3 [[0, 0, 0], [0, 0, 0], [0, 0, 0]] 0).valid_moves.count true :=
  legal_count_after_drop (Board.mk 3 3 3 [[0, 0, 0], [0, 0, 0], [0, 0, 0]] 0) 0 2 true
    (((Board.mk 3 3 3 [[0, 0, 0], [0, 0, 0], [0, 0, 0]] 0).dropM 0 2).2)
    (by decide)

/-! ### The MCTS search-tree node and backpropagation (`mcts_agent.py`) -/

theorem modifyIdx_getD {α : Type} [Inhabited α] (f : α → α) :
    ∀ (l : List α) (i : ℕ), i < l.length →
      (modifyIdx f l i).getD i default = f (l.getD i default) := by
  intro l
  induction l with
  | nil => intro i h; simp at h
  | cons a t ih =>
    intro i h
    cases i with
    | zero => rfl
    | succ i =>
      show (modifyIdx f t i).getD i default = f (t.getD i default)
      exact ih i (by simpa using h)

theorem backpropReward_cases (outcome toPlay : ℕ)
    (htp : toPlay = 1 ∨ toPlay = 2) :
    (outcome = opp toPlay → backpropReward outcome toPlay = 1) ∧
    (outcome = toPlay → backpropReward outcome toPlay = -1) ∧
    (outcome = 0 → backpropReward outcome toPlay = 0) := by
  rcases htp with h | h <;> subst h <;>
    exact ⟨fun ho => by subst ho; rfl, fun ho => by subst ho; rfl,
      fun ho => by subst ho; rfl⟩

/-- C9 (confirmed): backpropagation increments the visit count of every node
on the visited root→leaf path by exactly 1, and changes its accumulated
reward by +1 when the rollout outcome is the opponent of that node's to-play
(the player who moved into the node), by −1 when the outcome is the node's
to-play, and by 0 on a draw. -/
theorem mcts_backprop_updates :
    ∀ (path : List ℕ) (root : MNode) (outcome : ℕ),
      root.validPath path = true →
      (outcome = 0 ∨ outcome = 1 ∨ outcome = 2) →
      (∀ nd ∈ root.nodesAlong path, nd.toPlay = 1 ∨ nd.toPlay = 2) →
      List.Forall₂ (fun bef aft =>
        aft.visits = bef.visits + 1 ∧
        (outcome = opp bef.toPlay → aft.rewardSum = bef.rewardSum + 1) ∧
        (outcome = bef.toPlay → aft.rewardSum = bef.rewardSum - 1) ∧
        (outcome = 0 → aft.rewardSum = bef.rewardSum))
        (root.nodesAlong path)
        ((root.backprop path outcome).nodesAlong path) := by
  intro path
  induction path with
  | nil =>
    intro root outcome _ ho htp
    refine List.Forall₂.cons ?_ List.Forall₂.nil
    obtain ⟨h1, h2, h3⟩ := backpropReward_cases outcome root.toPlay
      (htp root (by simp [MNode.nodesAlong, MNode.backprop, MNode.updateAlong]))
    refine ⟨rfl, ?_, ?_, ?_⟩
    · intro ho'
      show root.rewardSum + backpropReward outcome root.toPlay = _
      rw [h1 ho']
    · intro ho'
      show root.rewardSum + backpropReward outcome root.toPlay = _
      rw [h2 ho']
      ring
    · intro ho'
      show root.rewardSum + backpropReward outcome root.toPlay = _
      rw [h3 ho']
      ring
  | cons i rest ih =>
    intro root outcome hvalid ho htp
    simp only [MNode.validPath, Bool.and_eq_true, decide_eq_true_eq] at hvalid
    obtain ⟨hi, hrest⟩ := hvalid
    have hhead : root ∈ root.nodesAlong (i :: rest) := by
      simp [MNode.nodesAlong]
    obtain ⟨h1, h2, h3⟩ := backpropReward_cases outcome root.toPlay (htp root hhead)
    have hchild : ((root.backprop (i :: rest) outcome).childAt i) =
        (root.childAt i).backprop rest outcome := by
      show ((modifyIdx (fun c => c.updateAlong (fun nd =>
          MNode.mk nd.move nd.toPlay (nd.visits + 1)
            (nd.rewardSum + backpropReward outcome nd.toPlay) nd.children)
          rest) root.children i).getD i default) = _
      rw [modifyIdx_getD _ _ _ hi]
      rfl
    have hsplit : (root.backprop (i :: rest) outcome).nodesAlong (i :: rest) =
        (root.backprop (i :: rest) outcome) ::
          ((root.childAt i).backprop rest outcome).nodesAlong rest := by
      rw [← hchild]
      rfl
    show List.Forall₂ _ (root :: (root.childAt i).nodesAlong rest) _
    rw [hsplit]
    refine List.Forall₂.cons ⟨rfl, ?_, ?_, ?_⟩
      (ih (root.childAt i) outcome hrest ho
        (fun nd hnd => htp nd (List.mem_cons_of_mem _ hnd)))
    · intro ho'
      show root.rewardSum + backpropReward outcome root.toPlay = _
      rw [h1 ho']
    · intro ho'
      show root.rewardSum + backpropReward outcome root.toPlay = _
      rw [h2 ho']
      ring
    · intro ho'
      show root.rewardSum + backpropReward outcome root.toPlay = _
      rw [h3 ho']
      ring

/-- Witness for C9: a two-node tree, path through child 0, outcome 1. -/
theorem mcts_backprop_updates_witness :
    List.Forall₂ (fun bef aft =>
      aft.visits = bef.visits + 1 ∧
      ((1 : ℕ) = opp bef.toPlay → aft.rewardSum = bef.rewardSum + 1) ∧
      ((1 : ℕ) = bef.toPlay → aft.rewardSum = bef.rewardSum - 1) ∧
      ((1 : ℕ) = 0 → aft.rewardSum = bef.rewardSum))
      ((MNode.mk 0 1 2 0 [MNode.mk 3 2 1 0 []]).nodesAlong [0])
      (((MNode.mk 0 1 2 0 [MNode.mk 3 2 1 0 []]).backprop [0] 1).nodesAlong [0]) :=
  mcts_backprop_updates [0] (MNode.mk 0 1 2 0 [MNode.mk 3 2 1 0 []]) 1
    (by decide) (Or.inr (Or.inl rfl))
    (by
      intro nd hnd
      simp only [MNode.nodesAlong, MNode.childAt, MNode.children,
        List.getD_cons_zero, List.mem_cons, List.mem_singleton] at hnd
      rcases hnd with h | h | h
      · subst h; exact Or.inl rfl
      · subst h; exact Or.inr rfl
      · exact absurd h (by simp [MNode.nodesAlong]))

/-- Witness for C10 on a concrete empty 3×3 board. -/
theorem drop_guard_complete_witness :
    ∃ r < (Board.mk 3 3 3 [[0, 0, 0], [0, 0, 0], [0, 0, 0]] 0).rows,
      (Board.mk 3 3 3 [[0, 0, 0], [0, 0, 0], [0, 0, 0]] 0).cell r 1 = 0 ∧
      (Board.mk 3 3 3 [[0, 0, 0], [0, 0, 0], [0, 0, 0]] 0).dropM 1 2 =
        (.ok true, (Board.mk 3 3 3 [[0, 0, 0], [0, 0, 0], [0, 0, 0]] 0).place r 1 2) ∧
      ((Board.mk 3 3 3 [[0, 0, 0], [0, 0, 0], [0, 0, 0]] 0).place r 1 2).countTokens =
        (Board.mk 3 3 3 [[0, 0, 0], [0, 0, 0], [0, 0, 0]] 0).countTokens + 1 :=
  (drop_guard_complete _ 1 2 (by decide)).2 (Or.inr rfl) (by decide) (by decide)


/-! ### Reference semantics: grids as rows on a heap

Python `list` rows are mutable objects.  To state the frame property (the
agents never mutate the caller's board) the rows live on a `Heap` and a
`BoardR` holds row references; cloning allocates fresh rows, `drop` writes
through the dropped board's own references.  Board objects themselves are
passed by value: every mutation of a board's scalar field (`moves`) in the
source happens on a freshly constructed clone, never on the caller's object. -/

/-- C1 (code bug): on the non-terminal board reached after dropping column 3
on the empty 6×7 board (winner 0, legal moves available), `_minimax` at
remaining depth 0 does not return the heuristic evaluator's composite score:
it raises `AttributeError`, because the source calls
`self.eval_agent.score_position` while the heuristic class only defines
`_score_position`. -/
theorem minimax_leaf_attribute_error :
    (hbind (cloneAndDropH boardR67 3 1 emptyHeap67) (fun nb h =>
      (h, Except.ok ((toVal h nb).winner)))).2 = Except.ok 0 ∧
    (hbind (cloneAndDropH boardR67 3 1 emptyHeap67) (fun nb h =>
      minimaxH offensiveWeights 0 nb (-INF) INF false 1 3 h)).2 =
      Except.error PyErr.attributeError := by
  constructor
  · decide
  · decide

/-- C5 (code bug): `MinimaxAgent.select_move` with depth 1 on the empty 6×7
board — which has seven legal columns — does not return a column and does
not raise the no-legal-moves error: it raises `AttributeError` from the
misnamed evaluator call at the first depth-0 leaf. -/
theorem minimax_select_move_attribute_error :
    (mmSelectMoveH offensiveWeights 1 boardR67 1 emptyHeap67).2 =
      Except.error PyErr.attributeError ∧
    legalColsR emptyHeap67 boardR67 ≠ [] := by
  constructor
  · decide
  · decide

/-! ### The MCTS searcher (`mcts_agent.py`)

The UCT child choice and the center-biased weighted draw compare floating
point values (`math.log`, `math.sqrt`, `random.random`); both are abstracted
by a choice oracle — a stream of naturals from which every child/element
selection is drawn — and the frame theorem below quantifies over *all*
oracles, so it covers whatever choices the floats and the random generator
make.  The simulation budget (`simulations_per_move` or the wall-clock
deadline, both of which run whole iterations) is abstracted by the number of
completed iterations. -/

theorem extendsOn_refl (n : ℕ) (h : Heap) : ExtendsOn n h h :=
  ⟨le_refl _, fun _ _ => rfl⟩

theorem extendsOn_trans {n : ℕ} {h1 h2 h3 : Heap}
    (a : ExtendsOn n h1 h2) (b : ExtendsOn n h2 h3) : ExtendsOn n h1 h3 :=
  ⟨le_trans a.1 b.1, fun i hi => (b.2 i hi).trans (a.2 i hi)⟩

theorem extends_hbind {α β : Type} {n : ℕ} {h : Heap}
    {x : Heap × Except PyErr α} {f : α → Heap → Heap × Except PyErr β}
    (hx : ExtendsOn n h x.1)
    (hf : ∀ a, ExtendsOn n x.1 (f a x.1).1) :
    ExtendsOn n h (hbind x f).1 := by
  rcases x with ⟨h1, e | a⟩
  · exact hx
  · exact extendsOn_trans hx (hf a)

theorem cloneBoardH_frame {n : ℕ} {b : BoardR} {h : Heap}
    (hn : n ≤ h.length) :
    ExtendsOn n h (cloneBoardH b h).1 ∧
    (∀ nb, (cloneBoardH b h).2 = .ok nb →
      RefsGE h.length nb ∧ nb.gridRefs.length = b.gridRefs.length ∧
      nb.rows = b.rows ∧ nb.cols = b.cols ∧ nb.connect = b.connect ∧
      h.length ≤ (cloneBoardH b h).1.length) := by
  unfold cloneBoardH allocRows
  by_cases hv : dimsValid b.rows b.cols b.connect
  · rw [if_pos hv]
    simp only
    refine ⟨⟨by simp, fun i hi => ?_⟩, fun nb hnb => ?_⟩
    · rw [List.getElem?_append_left (lt_of_lt_of_le hi hn)]
    · simp only [Except.ok.injEq] at hnb
      subst hnb
      refine ⟨?_, by simp [gridOf, toVal], rfl, rfl, rfl, by simp⟩
      intro ref href
      simp only at href
      rw [List.mem_range'_1] at href
      exact href.1
  · rw [if_neg hv]
    exact ⟨extendsOn_refl n h, fun nb hnb => by simp at hnb⟩

theorem dropHM_frame (n : ℕ) (b : BoardR) (col p : ℕ) (h : Heap)
    (hb : RefsGE n b) (hWFR : WFR b) :
    ExtendsOn n h (dropHM b col p h).1 ∧
    (∀ nb, (dropHM b col p h).2 = .ok nb → nb.gridRefs = b.gridRefs ∧
      nb.rows = b.rows ∧ nb.cols = b.cols ∧ nb.connect = b.connect) := by
  unfold dropHM
  by_cases h1 : p = 1 ∨ p = 2
  case neg =>
    rw [if_pos (by simpa using h1)]
    exact ⟨extendsOn_refl n h, fun nb hnb => by simp at hnb⟩
  rw [if_neg (not_not_intro h1)]
  by_cases h2 : col < b.cols
  case neg =>
    rw [if_pos (by simpa using h2)]
    exact ⟨extendsOn_refl n h, fun nb hnb => by simp at hnb⟩
  rw [if_neg (not_not_intro h2)]
  by_cases h3 : (toVal h b).cell 0 col ≠ 0
  case pos =>
    rw [if_pos h3]
    exact ⟨extendsOn_refl n h, fun nb hnb => by simp at hnb⟩
  rw [if_neg h3]
  match hfind : (toVal h b).findEmptyRow col with
  | none =>
    exact ⟨extendsOn_refl n h, fun nb hnb => by simp at hnb⟩
  | some r =>
    have hrlt : r < b.rows := (findEmptyRow_spec hfind).1
    have hmem : b.gridRefs.getD r 0 ∈ b.gridRefs := by
      rw [List.getD_eq_getElem _ _ (by rw [hWFR]; exact hrlt)]
      exact List.getElem_mem _
    have hge : n ≤ b.gridRefs.getD r 0 := hb _ hmem
    refine ⟨⟨by rw [List.length_set], fun i hi => ?_⟩,
      fun nb hnb => ?_⟩
    · exact List.getElem?_set_ne (by omega)
    · simp only [Except.ok.injEq] at hnb
      subst hnb
      exact ⟨rfl, rfl, rfl, rfl⟩

theorem cloneAndDropH_frame (n : ℕ) (b : BoardR) (col p : ℕ) (h : Heap)
    (hn : n ≤ h.length) (hWFR : WFR b) :
    ExtendsOn n h (cloneAndDropH b col p h).1 ∧
    (∀ nb, (cloneAndDropH b col p h).2 = .ok nb →
      RefsGE n nb ∧ WFR nb ∧ nb.rows = b.rows ∧ nb.cols = b.cols ∧
        nb.connect = b.connect) := by
  unfold cloneAndDropH
  obtain ⟨hcx, hcok⟩ := cloneBoardH_frame (n := n) (b := b) (h := h) hn
  rcases hcb : cloneBoardH b h with ⟨h1, e | nbc⟩
  · rw [hcb] at hcx
    exact ⟨hcx, fun nb hnb => by exact absurd hnb (by simp [hbind])⟩
  · rw [hcb] at hcx hcok
    obtain ⟨hrge, hlen, hrows, hcols, hconn, _⟩ := hcok nbc rfl
    have hbge : RefsGE n nbc := fun ref href => le_trans hn (hrge ref href)
    have hbWFR : WFR nbc := by
      unfold WFR
      rw [hlen, hrows, hWFR]
    obtain ⟨hdx, hdok⟩ := dropHM_frame n nbc col p h1 hbge hbWFR
    refine ⟨extendsOn_trans hcx hdx, fun nb hnb => ?_⟩
    replace hnb : (dropHM nbc col p h1).2 = .ok nb := hnb
    obtain ⟨hrefs, hr, hc, hk⟩ := hdok nb hnb
    refine ⟨fun ref href => hbge ref (hrefs ▸ href), ?_, hr.trans hrows,
      hc.trans hcols, hk.trans hconn⟩
    unfold WFR
    rw [hrefs, hlen, hWFR, hr.trans hrows]

theorem extends_hbind2 {α β : Type} {n : ℕ} {h : Heap}
    {x : Heap × Except PyErr α} {f : α → Heap → Heap × Except PyErr β}
    (hx : ExtendsOn n h x.1)
    (hf : ∀ a, x.2 = .ok a → ExtendsOn n x.1 (f a x.1).1) :
    ExtendsOn n h (hbind x f).1 := by
  rcases x with ⟨h1, e | a⟩
  · exact hx
  · exact extendsOn_trans hx (hf a rfl)

theorem immediateWinsAux_frame (n : ℕ) (b : BoardR) (pid : ℕ)
    (hWFR : WFR b) :
    ∀ (cs : List ℕ) (h : Heap), n ≤ h.length →
      ExtendsOn n h (immediateWinsAux b pid cs h).1 := by
  intro cs
  induction cs with
  | nil => intro h _; exact extendsOn_refl n h
  | cons c rest ih =>
    intro h hn
    unfold immediateWinsAux
    have hcd := cloneAndDropH_frame n b c pid h hn hWFR
    apply extends_hbind2 hcd.1
    intro nb _
    have hn1 : n ≤ (cloneAndDropH b c pid h).1.length :=
      le_trans hn hcd.1.1
    apply extends_hbind2 (ih _ hn1)
    intro ws _
    exact extendsOn_refl n _

theorem immediateWinsH_frame (n : ℕ) (b : BoardR) (pid : ℕ) (h : Heap)
    (hn : n ≤ h.length) (hWFR : WFR b) :
    ExtendsOn n h (immediateWinsH b pid h).1 :=
  immediateWinsAux_frame n b pid hWFR _ h hn

theorem createsDoubleThreatH_frame (n : ℕ) (b : BoardR) (col pid : ℕ)
    (h : Heap) (hn : n ≤ h.length) (hWFR : WFR b) :
    ExtendsOn n h (createsDoubleThreatH b col pid h).1 := by
  unfold createsDoubleThreatH
  have hcd := cloneAndDropH_frame n b col pid h hn hWFR
  apply extends_hbind2 hcd.1
  intro nb hnb
  obtain ⟨_, hWFRnb, _, _, _⟩ := hcd.2 nb hnb
  apply extends_hbind2 (immediateWinsH_frame n nb pid _ (le_trans hn hcd.1.1) hWFRnb)
  intro ws _
  exact extendsOn_refl n _

theorem filterDoubleThreatAux_frame (n : ℕ) (b : BoardR) (who : ℕ)
    (hWFR : WFR b) :
    ∀ (cs : List ℕ) (h : Heap), n ≤ h.length →
      ExtendsOn n h (filterDoubleThreatAux b who cs h).1 := by
  intro cs
  induction cs with
  | nil => intro h _; exact extendsOn_refl n h
  | cons c rest ih =>
    intro h hn
    unfold filterDoubleThreatAux
    have hdt := createsDoubleThreatH_frame n b c who h hn hWFR
    apply extends_hbind2 hdt
    intro dt _
    apply extends_hbind2 (ih _ (le_trans hn hdt.1))
    intro cs2 _
    exact extendsOn_refl n _

theorem scorePositionH_frame (n : ℕ) (w : Weights) (b : BoardR)
    (lastCol pid : ℕ) (h : Heap) (hn : n ≤ h.length) (hWFR : WFR b) :
    ExtendsOn n h (scorePositionH w b lastCol pid h).1 := by
  unfold scorePositionH
  have h1 := immediateWinsH_frame n b (opp pid) h hn hWFR
  apply extends_hbind2 h1
  intro oppWins _
  have h2 := immediateWinsH_frame n b pid
    (immediateWinsH b (opp pid) h).1 (le_trans hn h1.1) hWFR
  apply extends_hbind2 h2
  intro myWins _
  have h3 := immediateWinsH_frame n b (opp pid)
    _ (le_trans (le_trans hn h1.1) h2.1) hWFR
  apply extends_hbind2 h3
  intro oppWins2 _
  exact extendsOn_refl n _

theorem bestScoredAux_frame (n : ℕ) (w : Weights) (b : BoardR) (pid : ℕ)
    (hWFR : WFR b) :
    ∀ (cs : List ℕ) (best : Option (ℕ × ℤ)) (h : Heap), n ≤ h.length →
      ExtendsOn n h (bestScoredAux w b pid cs best h).1 := by
  intro cs
  induction cs with
  | nil => intro best h _; exact extendsOn_refl n h
  | cons c rest ih =>
    intro best h hn
    unfold bestScoredAux
    have hcd := cloneAndDropH_frame n b c pid h hn hWFR
    apply extends_hbind2 hcd.1
    intro nb hnb
    obtain ⟨_, hWFRnb, _, _, _⟩ := hcd.2 nb hnb
    have hsc := scorePositionH_frame n w nb c pid _
      (le_trans hn hcd.1.1) hWFRnb
    apply extends_hbind2 hsc
    intro sc _
    exact ih _ _ (le_trans (le_trans hn hcd.1.1) hsc.1)

theorem heurTier5_frame {n : ℕ} {w : Weights} {b : BoardR} {player : ℕ}
    {legal : List ℕ} {h : Heap} (hn : n ≤ h.length) (hWFR : WFR b) :
    ExtendsOn n h (heurTier5 w b player legal h).1 := by
  unfold heurTier5
  have hb := bestScoredAux_frame n w b player hWFR legal none h hn
  apply extends_hbind2 hb
  intro best _
  exact extendsOn_refl n _

theorem heurTier45_frame {n : ℕ} {w : Weights} {b : BoardR} {player : ℕ}
    {legal : List ℕ} (hWFR : WFR b) :
    ∀ (oppForks : List ℕ) (h : Heap), n ≤ h.length →
      ExtendsOn n h (heurTier45 w b player legal oppForks h).1 := by
  intro oppForks h hn
  match oppForks with
  | [] => exact heurTier5_frame hn hWFR
  | of0 :: ofs =>
    show ExtendsOn n h ((match (of0 :: ofs).filter
      (fun c => legal.contains c) with
      | [] => heurTier5 w b player legal h
      | c0 :: cs =>
        hbind (bestScoredAux w b player (c0 :: cs) none h)
          (fun best h => (h, .ok (best.map Prod.fst)))) : Heap × _).1
    rcases (of0 :: ofs).filter (fun c => legal.contains c) with _ | ⟨c0, cs⟩
    · exact heurTier5_frame hn hWFR
    · have hb := bestScoredAux_frame n w b player hWFR (c0 :: cs) none h hn
      apply extends_hbind2 hb
      intro best _
      exact extendsOn_refl n _

theorem heurSelectMoveH_frame {n : ℕ} {w : Weights} {b : BoardR}
    {player : ℕ} {h : Heap} (hn : n ≤ h.length) (hWFR : WFR b) :
    ExtendsOn n h (heurSelectMoveH w b player h).1 := by
  unfold heurSelectMoveH
  match legalColsR h b with
  | [] => exact extendsOn_refl n h
  | l0 :: ls =>
    have h1 := immediateWinsH_frame n b player h hn hWFR
    apply extends_hbind2 h1
    intro myWins _
    match myWins with
    | c :: _ => exact extendsOn_refl n _
    | [] =>
      have h2 := immediateWinsH_frame n b (opp player)
        _ (le_trans hn h1.1) hWFR
      apply extends_hbind2 h2
      intro oppWins _
      have hn2 : n ≤ ((immediateWinsH b (opp player)
          (immediateWinsH b player h).1).1).length :=
        le_trans (le_trans hn h1.1) h2.1
      match oppWins with
      | oc :: ocs =>
        have hb := bestScoredAux_frame n w b player hWFR (oc :: ocs) none _ hn2
        apply extends_hbind2 hb
        intro best _
        exact extendsOn_refl n _
      | [] =>
        have h3 := filterDoubleThreatAux_frame n b player hWFR (l0 :: ls) _ hn2
        apply extends_hbind2 h3
        intro myForks _
        have hn3 : n ≤ _ := le_trans hn2 h3.1
        match myForks with
        | f0 :: fs => exact extendsOn_refl n _
        | [] =>
          have h4 := filterDoubleThreatAux_frame n b (opp player) hWFR
            (l0 :: ls) _ hn3
          apply extends_hbind2 h4
          intro oppForks _
          have hn4 : n ≤ _ := le_trans hn3 h4.1
          exact heurTier45_frame hWFR oppForks _ hn4

theorem mmMaxAux_frame {n : ℕ} {node : BoardR} {mover : ℕ}
    {rec : BoardR → ℤ → ℤ → ℕ → Heap → Heap × Except PyErr ℤ}
    (hWFR : WFR node)
    (hrec : ∀ (nb : BoardR) (a bt : ℤ) (lc : ℕ) (h : Heap),
      n ≤ h.length → WFR nb → ExtendsOn n h (rec nb a bt lc h).1) :
    ∀ (ms : List ℕ) (value alpha beta : ℤ) (h : Heap), n ≤ h.length →
      ExtendsOn n h (mmMaxAux rec node mover ms value alpha beta h).1 := by
  intro ms
  induction ms with
  | nil => intro value alpha beta h hn; exact extendsOn_refl n h
  | cons m rest ih =>
    intro value alpha beta h hn
    unfold mmMaxAux
    have hcd := cloneAndDropH_frame n node m mover h hn hWFR
    apply extends_hbind2 hcd.1
    intro nb hnb
    obtain ⟨_, hWFRnb, _, _, _⟩ := hcd.2 nb hnb
    have hr := hrec nb alpha beta m _ (le_trans hn hcd.1.1) hWFRnb
    apply extends_hbind2 hr
    intro cv _
    dsimp only
    by_cases hcut : (if (if cv > value then cv else value) > alpha
        then (if cv > value then cv else value) else alpha) ≥ beta
    · rw [if_pos hcut]
      exact extendsOn_refl n _
    · rw [if_neg hcut]
      exact ih _ _ _ _ (le_trans (le_trans hn hcd.1.1) hr.1)

theorem mmMinAux_frame {n : ℕ} {node : BoardR} {mover : ℕ}
    {rec : BoardR → ℤ → ℤ → ℕ → Heap → Heap × Except PyErr ℤ}
    (hWFR : WFR node)
    (hrec : ∀ (nb : BoardR) (a bt : ℤ) (lc : ℕ) (h : Heap),
      n ≤ h.length → WFR nb → ExtendsOn n h (rec nb a bt lc h).1) :
    ∀ (ms : List ℕ) (value alpha beta : ℤ) (h : Heap), n ≤ h.length →
      ExtendsOn n h (mmMinAux rec node mover ms value alpha beta h).1 := by
  intro ms
  induction ms with
  | nil => intro value alpha beta h hn; exact extendsOn_refl n h
  | cons m rest ih =>
    intro value alpha beta h hn
    unfold mmMinAux
    have hcd := cloneAndDropH_frame n node m mover h hn hWFR
    apply extends_hbind2 hcd.1
    intro nb hnb
    obtain ⟨_, hWFRnb, _, _, _⟩ := hcd.2 nb hnb
    have hr := hrec nb alpha beta m _ (le_trans hn hcd.1.1) hWFRnb
    apply extends_hbind2 hr
    intro cv _
    dsimp only
    by_cases hcut : alpha ≥ (if (if cv < value then cv else value) < beta
        then (if cv < value then cv else value) else beta)
    · rw [if_pos hcut]
      exact extendsOn_refl n _
    · rw [if_neg hcut]
      exact ih _ _ _ _ (le_trans (le_trans hn hcd.1.1) hr.1)

theorem minimaxH_frame (n : ℕ) (w : Weights) :
    ∀ (depth : ℕ) (node : BoardR) (alpha beta : ℤ) (mx : Bool)
      (maxPlayer lastCol : ℕ) (h : Heap), n ≤ h.length → WFR node →
      ExtendsOn n h
        (minimaxH w depth node alpha beta mx maxPlayer lastCol h).1 := by
  intro depth
  induction depth with
  | zero =>
    intro node alpha beta mx maxPlayer lastCol h hn hWFR
    unfold minimaxH
    dsimp only
    split
    · exact extendsOn_refl n h
    · split
      · exact extendsOn_refl n h
      · exact extendsOn_refl n h
  | succ d ih =>
    intro node alpha beta mx maxPlayer lastCol h hn hWFR
    unfold minimaxH
    dsimp only
    split
    · exact extendsOn_refl n h
    · split
      · exact extendsOn_refl n h
      · split
        · exact extendsOn_refl n h
        · split
          · exact mmMaxAux_frame hWFR
              (fun nb a bt lc h2 hn2 hW2 => ih nb a bt false maxPlayer lc h2 hn2 hW2)
              _ _ _ _ h hn
          · exact mmMinAux_frame hWFR
              (fun nb a bt lc h2 hn2 hW2 => ih nb a bt true maxPlayer lc h2 hn2 hW2)
              _ _ _ _ h hn

theorem mmSelectAux_frame (n : ℕ) (w : Weights) (depth : ℕ) (board : BoardR)
    (player : ℕ) (hWFR : WFR board) :
    ∀ (ms : List ℕ) (bestValue : ℤ) (bestMove : ℕ) (alpha : ℤ) (h : Heap),
      n ≤ h.length →
      ExtendsOn n h
        (mmSelectAux w depth board player ms bestValue bestMove alpha h).1 := by
  intro ms
  induction ms with
  | nil => intro bv bm alpha h hn; exact extendsOn_refl n h
  | cons m rest ih =>
    intro bv bm alpha h hn
    unfold mmSelectAux
    have hcd := cloneAndDropH_frame n board m player h hn hWFR
    apply extends_hbind2 hcd.1
    intro nb hnb
    obtain ⟨_, hWFRnb, _, _, _⟩ := hcd.2 nb hnb
    have hr := minimaxH_frame n w depth nb alpha INF false
      player m _ (le_trans hn hcd.1.1) hWFRnb
    apply extends_hbind2 hr
    intro val _
    exact ih _ _ _ _ (le_trans (le_trans hn hcd.1.1) hr.1)

theorem mmSelectMoveH_frame (n : ℕ) (w : Weights) (depth : ℕ)
    (board : BoardR) (player : ℕ) (h : Heap) (hn : n ≤ h.length)
    (hWFR : WFR board) :
    ExtendsOn n h (mmSelectMoveH w depth board player h).1 := by
  unfold mmSelectMoveH
  match legalColsR h board with
  | [] => exact extendsOn_refl n h
  | l0 :: ls => exact mmSelectAux_frame n w (depth - 1) board player hWFR _ _ _ _ h hn

theorem policyWinAux_frame (n : ℕ) (state : BoardR) (pid : ℕ)
    (hW : WFR state) :
    ∀ (cs : List ℕ) (h : Heap), n ≤ h.length →
      ExtendsOn n h (policyWinAux state pid cs h).1 := by
  intro cs
  induction cs with
  | nil => intro h hn; exact extendsOn_refl n h
  | cons c rest ih =>
    intro h hn
    unfold policyWinAux
    have hcd := cloneAndDropH_frame n state c pid h hn hW
    apply extends_hbind2 hcd.1
    intro b2 _
    split
    · exact extendsOn_refl n _
    · exact ih _ (le_trans hn hcd.1.1)

theorem oppMateAux_frame (n : ℕ) (b2 : BoardR) (q : ℕ) (hW : WFR b2) :
    ∀ (cs : List ℕ) (h : Heap), n ≤ h.length →
      ExtendsOn n h (oppMateAux b2 q cs h).1 := by
  intro cs
  induction cs with
  | nil => intro h hn; exact extendsOn_refl n h
  | cons cc rest ih =>
    intro h hn
    unfold oppMateAux
    have hcd := cloneAndDropH_frame n b2 cc q h hn hW
    apply extends_hbind2 hcd.1
    intro b3 _
    split
    · exact extendsOn_refl n _
    · exact ih _ (le_trans hn hcd.1.1)

theorem partitionSafeAux_frame (n : ℕ) (state : BoardR) (pid : ℕ)
    (hW : WFR state) :
    ∀ (cs : List ℕ) (h : Heap), n ≤ h.length →
      ExtendsOn n h (partitionSafeAux state pid cs h).1 := by
  intro cs
  induction cs with
  | nil => intro h hn; exact extendsOn_refl n h
  | cons c rest ih =>
    intro h hn
    unfold partitionSafeAux
    have hcd := cloneAndDropH_frame n state c pid h hn hW
    apply extends_hbind2 hcd.1
    intro b2 hb2
    obtain ⟨_, hWb2, _, _, _⟩ := hcd.2 b2 hb2
    have hom := oppMateAux_frame n b2 (opp pid) hWb2
      (legalColsR (cloneAndDropH state c pid h).1 b2) _
      (le_trans hn hcd.1.1)
    apply extends_hbind2 hom
    intro danger _
    have ht := ih _ (le_trans (le_trans hn hcd.1.1) hom.1)
    apply extends_hbind2 ht
    intro sd _
    exact extendsOn_refl n _

theorem policyPick_frame (n : ℕ) (pool o : List ℕ) (h : Heap) :
    ExtendsOn n h (policyPick pool o h).1 := by
  unfold policyPick
  match pool with
  | [] => exact extendsOn_refl n h
  | p0 :: ps => exact extendsOn_refl n h

theorem policyMoveAux_frame (n : ℕ) (state : BoardR) (pid : ℕ)
    (legal o : List ℕ) (h : Heap) (hn : n ≤ h.length) (hW : WFR state) :
    ExtendsOn n h (policyMoveAux state pid legal o h).1 := by
  unfold policyMoveAux
  have h1 := policyWinAux_frame n state pid hW legal h hn
  apply extends_hbind2 h1
  intro winc _
  match winc with
  | some c => exact extendsOn_refl n _
  | none =>
    have h2 := partitionSafeAux_frame n state pid hW legal _
      (le_trans hn h1.1)
    apply extends_hbind2 h2
    intro sd _
    exact policyPick_frame n _ o _

theorem policyMoveH_frame (n : ℕ) (state : BoardR) (pid : ℕ) (o : List ℕ)
    (h : Heap) (hn : n ≤ h.length) (hW : WFR state) :
    ExtendsOn n h (policyMoveH state pid o h).1 :=
  policyMoveAux_frame n state pid (legalColsR h state) o h hn hW

theorem rolloutH_frame (n : ℕ) (cfg : MCfg) :
    ∀ (fuel : ℕ) (state : BoardR) (tp steps : ℕ) (o : List ℕ) (h : Heap),
      n ≤ h.length → RefsGE n state → WFR state →
      ExtendsOn n h (rolloutH cfg fuel state tp steps o h).1 := by
  intro fuel
  induction fuel with
  | zero => intro state tp steps o h hn _ _; exact extendsOn_refl n h
  | succ fuel ih =>
    intro state tp steps o h hn hge hW
    unfold rolloutH
    split
    · exact extendsOn_refl n h
    · split
      · exact extendsOn_refl n h
      · have hp := policyMoveH_frame n state tp o h hn hW
        apply extends_hbind2 hp
        intro co _
        have hd := dropHM_frame n state co.1 tp
          (policyMoveH state tp o h).1 hge hW
        apply extends_hbind2 hd.1
        intro state2 hst2
        obtain ⟨hrefs2, hrows2, _, _⟩ := hd.2 state2 hst2
        split
        · exact extendsOn_refl n _
        · refine ih state2 (opp tp) (steps + 1) co.2 _
            (le_trans (le_trans hn hp.1) hd.1.1) ?_ ?_
          · intro ref href
            exact hge ref (hrefs2 ▸ href)
          · unfold WFR
            rw [hrefs2, hrows2, hW]

theorem selectAux_frame (n : ℕ) :
    ∀ (fuel : ℕ) (node : MNode) (state : BoardR) (path o : List ℕ) (h : Heap),
      n ≤ h.length → RefsGE n state → WFR state →
      ExtendsOn n h (selectAux fuel node state path o h).1 ∧
      (∀ res, (selectAux fuel node state path o h).2 = .ok res →
        RefsGE n res.2.2.1 ∧ WFR res.2.2.1) := by
  intro fuel
  induction fuel with
  | zero =>
    intro node state path o h hn hge hW
    refine ⟨extendsOn_refl n h, fun res hres => ?_⟩
    simp only [selectAux, Except.ok.injEq] at hres
    subst hres
    exact ⟨hge, hW⟩
  | succ fuel ih =>
    intro node state path o h hn hge hW
    unfold selectAux
    match node.children with
    | [] =>
      refine ⟨extendsOn_refl n h, fun res hres => ?_⟩
      simp only [Except.ok.injEq] at hres
      subst hres
      exact ⟨hge, hW⟩
    | c0 :: cs =>
      have hcd := cloneAndDropH_frame n state
        ((c0 :: cs).getD (pickIdx o (c0 :: cs).length) default).move
        node.toPlay h hn hW
      rcases hcb : cloneAndDropH state
          ((c0 :: cs).getD (pickIdx o (c0 :: cs).length) default).move
          node.toPlay h with ⟨h1, e | state2⟩
      · rw [hcb] at hcd
        dsimp only
        rw [hcb]
        exact ⟨hcd.1, fun res hres => absurd hres (by simp [hbind])⟩
      · rw [hcb] at hcd
        obtain ⟨hge2, hW2, _, _, _⟩ := hcd.2 state2 rfl
        dsimp only
        rw [hcb]
        simp only [hbind]
        by_cases hcond : (((c0 :: cs).getD (pickIdx o (c0 :: cs).length)
            default).visits = 0 || isTerminalR h1 state2) = true
        · rw [if_pos hcond]
          refine ⟨hcd.1, fun res hres => ?_⟩
          simp only [Except.ok.injEq] at hres
          subst hres
          exact ⟨hge2, hW2⟩
        · rw [if_neg hcond]
          have hih := ih ((c0 :: cs).getD (pickIdx o (c0 :: cs).length)
              default) state2 (path ++ [pickIdx o (c0 :: cs).length]) o.tail
            h1 (le_trans hn hcd.1.1) hge2 hW2
          exact ⟨extendsOn_trans hcd.1 hih.1, hih.2⟩

theorem selectH_frame (n : ℕ) (root : MNode) (rootState : BoardR)
    (o : List ℕ) (h : Heap) (hn : n ≤ h.length) (hW : WFR rootState) :
    ExtendsOn n h (selectH root rootState o h).1 ∧
    (∀ res, (selectH root rootState o h).2 = .ok res →
      RefsGE n res.2.2.1 ∧ WFR res.2.2.1) := by
  unfold selectH
  have hcb := cloneBoardH_frame (n := n) (b := rootState) (h := h) hn
  rcases hc : cloneBoardH rootState h with ⟨h1, e | state⟩
  · rw [hc] at hcb
    exact ⟨hcb.1, fun res hres => absurd hres (by simp [hbind])⟩
  · rw [hc] at hcb
    obtain ⟨hge1, hlen1, hrows1, _, _, _⟩ := hcb.2 state rfl
    have hWst : WFR state := by
      unfold WFR
      rw [hlen1, hrows1, hW]
    have hgest : RefsGE n state := fun ref href => le_trans hn (hge1 ref href)
    have hsa := selectAux_frame n (rootState.rows * rootState.cols + 2) root
      state [] o h1 (le_trans hn hcb.1.1) hgest hWst
    simp only [hbind]
    exact ⟨extendsOn_trans hcb.1 hsa.1, hsa.2⟩

theorem iterateH_frame (n : ℕ) (cfg : MCfg) (root : MNode)
    (rootState : BoardR) (o : List ℕ) (h : Heap) (hn : n ≤ h.length)
    (hW : WFR rootState) :
    ExtendsOn n h (iterateH cfg root rootState o h).1 := by
  unfold iterateH
  have hs := selectH_frame n root rootState o h hn hW
  apply extends_hbind2 hs.1
  intro res hres
  obtain ⟨hgeL, hWL⟩ := hs.2 res hres
  obtain ⟨path, leaf, leafState, o1⟩ := res
  dsimp only at hgeL hWL ⊢
  by_cases hterm : isTerminalR (selectH root rootState o h).1 leafState = true
  · rw [if_pos hterm]
    have hro := rolloutH_frame n cfg (leafState.rows * leafState.cols + 1)
      leafState leaf.toPlay 0 o1 (selectH root rootState o h).1
      (le_trans hn hs.1.1) hgeL hWL
    apply extends_hbind2 hro
    intro out _
    exact extendsOn_refl n _
  · rw [if_neg hterm]
    rcases hex : expandChildren (selectH root rootState o h).1 leafState
        leaf.toPlay with _ | ⟨k0, ks⟩
    · have hro := rolloutH_frame n cfg (leafState.rows * leafState.cols + 1)
        leafState leaf.toPlay 0 o1 (selectH root rootState o h).1
        (le_trans hn hs.1.1) hgeL hWL
      apply extends_hbind2 hro
      intro out _
      exact extendsOn_refl n _
    · have hcd := cloneAndDropH_frame n leafState
        ((k0 :: ks).getD (pickIdx o1 (k0 :: ks).length) default).move
        leaf.toPlay (selectH root rootState o h).1 (le_trans hn hs.1.1) hWL
      apply extends_hbind2 hcd.1
      intro st2 hst2
      obtain ⟨hge2, hW2, _, _, _⟩ := hcd.2 st2 hst2
      have hro := rolloutH_frame n cfg (st2.rows * st2.cols + 1) st2
        ((k0 :: ks).getD (pickIdx o1 (k0 :: ks).length) default).toPlay 0
        o1.tail (cloneAndDropH leafState
          ((k0 :: ks).getD (pickIdx o1 (k0 :: ks).length) default).move
          leaf.toPlay (selectH root rootState o h).1).1
        (le_trans (le_trans hn hs.1.1) hcd.1.1) hge2 hW2
      apply extends_hbind2 hro
      intro out _
      exact extendsOn_refl n _

theorem mctsLoop_frame (n : ℕ) (cfg : MCfg) :
    ∀ (sims : ℕ) (root : MNode) (rootState : BoardR) (o : List ℕ) (h : Heap),
      n ≤ h.length → WFR rootState →
      ExtendsOn n h (mctsLoop cfg sims root rootState o h).1 := by
  intro sims
  induction sims with
  | zero => intro root rootState o h hn _; exact extendsOn_refl n h
  | succ sims ih =>
    intro root rootState o h hn hW
    unfold mctsLoop
    have hit := iterateH_frame n cfg root rootState o h hn hW
    apply extends_hbind2 hit
    intro ro _
    exact ih ro.1 rootState ro.2 _ (le_trans hn hit.1) hW

theorem mctsSelectMoveH_frame (n : ℕ) (cfg : MCfg) (sims : ℕ) (o : List ℕ)
    (board : BoardR) (player : ℕ) (h : Heap) (hn : n ≤ h.length)
    (hW : WFR board) :
    ExtendsOn n h (mctsSelectMoveH cfg sims o board player h).1 := by
  unfold mctsSelectMoveH
  have hcb := cloneBoardH_frame (n := n) (b := board) (h := h) hn
  rcases hc : cloneBoardH board h with ⟨h1, e | rootState⟩
  · rw [hc] at hcb
    exact hcb.1
  · rw [hc] at hcb
    obtain ⟨hge1, hlen1, hrows1, _, _, _⟩ := hcb.2 rootState rfl
    have hWst : WFR rootState := by
      unfold WFR
      rw [hlen1, hrows1, hW]
    simp only [hbind]
    have hlp := mctsLoop_frame n cfg sims (MNode.mk 0 player 0 0 [])
      rootState o h1 (le_trans hn hcb.1.1) hWst
    apply extends_hbind2 (extendsOn_trans hcb.1 hlp)
    intro ro _
    match (ro.1).children with
    | [] =>
      match legalColsR (mctsLoop cfg sims (MNode.mk 0 player 0 0 [])
          rootState o h1).1 board with
      | [] => exact extendsOn_refl n _
      | l0 :: ls => exact extendsOn_refl n _
    | c0 :: cs => exact extendsOn_refl n _

theorem toVal_eq_of_extends {h h2 : Heap} {b : BoardR}
    (hext : ExtendsOn h.length h h2)
    (hrefs : ∀ ref ∈ b.gridRefs, ref < h.length) :
    toVal h2 b = toVal h b := by
  unfold toVal
  congr 1
  apply List.map_congr_left
  intro ref href
  have hgel : h2[ref]? = h[ref]? := hext.2 ref (hrefs ref href)
  rw [List.getD_eq_getElem?_getD, List.getD_eq_getElem?_getD, hgel]

/-- C6: for every board and player, `select_move` of the heuristic, minimax
and MCTS agents never mutates the board argument: every grid cell and the
move counter (the whole value-level view `toVal` of the caller's board,
whose row references all point into the current heap) are identical before
and after the call, for every look-ahead depth, simulation budget,
configuration and random stream. -/
theorem agents_never_mutate_board (w : Weights) (depth sims : ℕ)
    (cfg : MCfg) (oracle : List ℕ) (h : Heap) (b : BoardR) (player : ℕ)
    (hrefs : ∀ ref ∈ b.gridRefs, ref < h.length) (hWFR : WFR b) :
    toVal (heurSelectMoveH w b player h).1 b = toVal h b ∧
    toVal (mmSelectMoveH w depth b player h).1 b = toVal h b ∧
    toVal (mctsSelectMoveH cfg sims oracle b player h).1 b = toVal h b :=
  ⟨toVal_eq_of_extends (heurSelectMoveH_frame (le_refl _) hWFR) hrefs,
   toVal_eq_of_extends
     (mmSelectMoveH_frame h.length w depth b player h (le_refl _) hWFR) hrefs,
   toVal_eq_of_extends
     (mctsSelectMoveH_frame h.length cfg sims oracle b player h (le_refl _)
       hWFR) hrefs⟩

/-- Witness for C6 at the standard empty 6x7 board: the hypotheses hold and
all three agents leave the caller's board intact. -/
theorem agents_never_mutate_board_witness :
    (∀ ref ∈ boardR67.gridRefs, ref < emptyHeap67.length) ∧
    (toVal (heurSelectMoveH offensiveWeights boardR67 1 emptyHeap67).1
        boardR67 = toVal emptyHeap67 boardR67 ∧
      toVal (mmSelectMoveH offensiveWeights 1 boardR67 1 emptyHeap67).1
        boardR67 = toVal emptyHeap67 boardR67 ∧
      toVal (mctsSelectMoveH ⟨none, false⟩ 1 [] boardR67 1 emptyHeap67).1
        boardR67 = toVal emptyHeap67 boardR67) :=
  ⟨by decide,
   agents_never_mutate_board offensiveWeights 1 1 ⟨none, false⟩ []
     emptyHeap67 boardR67 1 (by decide) (by unfold WFR; decide)⟩
